import Mathlib

/-!
Influx line-protocol client: buffering, grouping and encoding.

A shallow embedding of `p28-influxdb-client.cpp` / `p28-influxdb-client.h`:
the `KeyValue` formatter, the `Measurement` builder, the two-queue buffer of
`Connection`, and one pass of the body of `Connection::worker`
(buffer switch, drain loop, URL assembly, line encoding, dispatch).

Modelling conventions.
* `std::string` is `String`; `std::vector` and `std::queue` are `List`
  (front of the queue = head of the list, `push` appends at the end).
* `long long` is `Int`; the code does no arithmetic on it.
* Data members that no constructor initialises (`haveTimestamp`, `ts`) are
  taken by the constructors as explicit arguments standing for whatever the
  storage held.
* `std::sort` is a library routine whose contract is "a permutation of the
  input that is ordered for the comparator"; it is a parameter (`StdSort`)
  and `insertionStdSort` is an executable instance.
* The transport (`curl_easy_*`) is a record of outcomes (`Curl`).
* The floating-point overload of `field` takes the text the stream writes for the
  value as an argument; the formatting itself is the library's.
-/

namespace Influx

/-! ## KeyValue -/

/-- Struct `KeyValue` of the header: a name and an already formatted value. -/
structure KeyValue where
  name : String
  value : String
deriving DecidableEq, Repr

/-- Conversion `KeyValue::operator const std::string &`: `ss << name << "=" << value << ""`. -/
def KeyValue.toStdString (kv : KeyValue) : String :=
  kv.name ++ "=" ++ kv.value ++ ""

/-! ## Measurement -/

/-- Class `Measurement` of the header, data members in declaration order. -/
structure Measurement where
  name : String
  tags : List KeyValue
  fields : List KeyValue
  havePrecision : Bool
  precision : String
  haveTimestamp : Bool
  ts : Int
deriving DecidableEq, Repr

namespace Measurement

/-- Constructor `Measurement()`; `haveTimestamp` and `ts` are not initialised by it. -/
def mkDefault (uninitHaveTimestamp : Bool) (uninitTs : Int) : Measurement :=
  { name := "", tags := [], fields := [], havePrecision := false, precision := "ms",
    haveTimestamp := uninitHaveTimestamp, ts := uninitTs }

/-- Constructor `Measurement(std::string name)`; `haveTimestamp` and `ts` are not initialised by it. -/
def mkNamed (name : String) (uninitHaveTimestamp : Bool) (uninitTs : Int) : Measurement :=
  { name := name, tags := [], fields := [], havePrecision := false, precision := "ms",
    haveTimestamp := uninitHaveTimestamp, ts := uninitTs }

/-- Constructor `Measurement(std::string name, std::string precision)`;
`haveTimestamp` and `ts` are not initialised by it. -/
def mkWithPrecision (name precision : String) (uninitHaveTimestamp : Bool) (uninitTs : Int) :
    Measurement :=
  { name := name, tags := [], fields := [], havePrecision := true, precision := precision,
    haveTimestamp := uninitHaveTimestamp, ts := uninitTs }

/-- Copy constructor `Measurement(const Measurement &other)`: every member is copied. -/
def copy (other : Measurement) : Measurement :=
  { name := other.name, tags := other.tags, fields := other.fields,
    havePrecision := other.havePrecision, precision := other.precision,
    haveTimestamp := other.haveTimestamp, ts := other.ts }

/-- Assignment `operator=(Measurement other)`: name, tags, fields and both flags are
taken from `other`; `precision` and `ts` only when the corresponding flag of `other` is set. -/
def assign (self other : Measurement) : Measurement :=
  { name := other.name, tags := other.tags, fields := other.fields,
    havePrecision := other.havePrecision,
    precision := if other.havePrecision then other.precision else self.precision,
    haveTimestamp := other.haveTimestamp,
    ts := if other.haveTimestamp then other.ts else self.ts }

/-- Builder `tag(name, value)`: pushes `KeyValue(name, "\"" + value + "\"")`. -/
def tag (self : Measurement) (name value : String) : Measurement :=
  { self with tags := self.tags ++ [⟨name, "\"" ++ value ++ "\""⟩] }

/-- Builder `field(name, char value)`. -/
def fieldChar (self : Measurement) (name : String) (value : Char) : Measurement :=
  { self with fields := self.fields ++ [⟨name, ("\"".push value) ++ "\""⟩] }

/-- Builder `field(name, std::string value)`. -/
def fieldString (self : Measurement) (name value : String) : Measurement :=
  { self with fields := self.fields ++ [⟨name, "\"" ++ value ++ "\""⟩] }

/-- Builder `field(name, bool value)`. -/
def fieldBool (self : Measurement) (name : String) (value : Bool) : Measurement :=
  { self with fields := self.fields ++ [⟨name, if value then "t" else "f"⟩] }

/-- Stream insertion of a `long long` (`ss << value`): optional minus sign, decimal digits. -/
def streamLongLong (value : Int) : String :=
  match value with
  | Int.ofNat n => Nat.repr n
  | Int.negSucc n => "-" ++ Nat.repr (n + 1)

/-- Builder `field(name, long long value)`: `ss << value << 'i'`. -/
def fieldLongLong (self : Measurement) (name : String) (value : Int) : Measurement :=
  { self with fields := self.fields ++ [⟨name, (streamLongLong value).push 'i'⟩] }

/-- Builder `field(name, double value, int prec)`: `ss.precision(prec); ss << value`.
The text the stream writes for the value is the library's floating-point formatting
and is passed in as `streamed`. -/
def fieldDouble (self : Measurement) (name streamed : String) : Measurement :=
  { self with fields := self.fields ++ [⟨name, streamed⟩] }

/-- Builder `timestamp(long long timestamp)`. -/
def timestamp (self : Measurement) (timestamp : Int) : Measurement :=
  { self with ts := timestamp, haveTimestamp := true }

end Measurement

/-! ## Connection -/

/-- Which of the two member queues the pointer `currentBuffer` designates. -/
inductive BufferId where
  | A
  | B
deriving DecidableEq, Repr

/-- Class `Connection` of the header: the members the flush pipeline reads or writes. -/
structure Connection where
  serverUrl : String
  database : String
  user : String
  password : String
  defaultPrecision : String
  bufferLength : Int
  bufferDuration : Int
  currentBuffer : BufferId
  bufferA : List Measurement
  bufferB : List Measurement
deriving DecidableEq, Repr

namespace Connection

/-- Constructor `Connection(serverUrl, database, user, password)`. -/
def create (serverUrl database user password : String) : Connection :=
  { serverUrl := serverUrl, database := database, user := user, password := password,
    defaultPrecision := "ms", bufferLength := 5, bufferDuration := 500,
    currentBuffer := BufferId.A, bufferA := [], bufferB := [] }

/-- Setter `setDefaultPrecision`. -/
def setDefaultPrecision (c : Connection) (defaultPrecision : String) : Connection :=
  { c with defaultPrecision := defaultPrecision }

/-- Setter `setBufferLength`. -/
def setBufferLength (c : Connection) (measurements : Int) : Connection :=
  { c with bufferLength := measurements }

/-- Setter `setBufferDuration`. -/
def setBufferDuration (c : Connection) (millis : Int) : Connection :=
  { c with bufferDuration := millis }

/-- Contents of the queue with the given identity. -/
def buffer (c : Connection) : BufferId → List Measurement
  | BufferId.A => c.bufferA
  | BufferId.B => c.bufferB

/-- Replace the contents of the queue with the given identity. -/
def setBuffer (c : Connection) (b : BufferId) (q : List Measurement) : Connection :=
  match b with
  | BufferId.A => { c with bufferA := q }
  | BufferId.B => { c with bufferB := q }

/-- Method `enqueue(Measurement &measurement)`: `currentBuffer->push(measurement)`
(the push copy-constructs the element). -/
def enqueue (c : Connection) (measurement : Measurement) : Connection :=
  c.setBuffer c.currentBuffer (c.buffer c.currentBuffer ++ [Measurement.copy measurement])

end Connection

/-- The other queue. -/
def BufferId.other : BufferId → BufferId
  | BufferId.A => BufferId.B
  | BufferId.B => BufferId.A

/-! ## Worker: buffer switch (lines 179-197) -/

/-- The locked section of one worker pass: when `*currentBuffer` is not empty the
pointer is switched to the other member queue, and `bufferToProcess` is then read
from `currentBuffer`. Returns the connection and `bufferToProcess`
(`none` for `nullptr`). -/
def switchBuffer (c : Connection) : Connection × Option BufferId :=
  if !(c.buffer c.currentBuffer).isEmpty then
    let c1 : Connection :=
      if c.currentBuffer = BufferId.A then { c with currentBuffer := BufferId.B }
      else { c with currentBuffer := BufferId.A }
    (c1, some c1.currentBuffer)
  else
    (c, none)

/-! ## Sorting by key -/

/-- Lexicographic `operator<` of `std::string`, character by character; a proper
prefix is smaller. -/
def stringLess : List Char → List Char → Bool
  | _, [] => false
  | [], _ :: _ => true
  | a :: as, b :: bs =>
    if a.toNat < b.toNat then true
    else if b.toNat < a.toNat then false
    else stringLess as bs

/-- Comparator `tagsVectorComparator`: `a.name < b.name`. -/
def tagsVectorComparator (a b : KeyValue) : Bool :=
  stringLess a.name.data b.name.data

/-- Order left by a sort with `tagsVectorComparator`: no later element compares
less than an earlier one. -/
def KeyOrdered (l : List KeyValue) : Prop :=
  List.Pairwise (fun a b => tagsVectorComparator b a = false) l

/-- Contract of `std::sort(first, last, tagsVectorComparator)`: the range is
rearranged (a permutation) so that it is ordered for the comparator. The relative
order of elements with equal names is left open by the library. -/
structure StdSort where
  run : List KeyValue → List KeyValue
  perm : ∀ l, List.Perm (run l) l
  ordered : ∀ l, KeyOrdered (run l)

/-! ## Worker: line encoding (lines 267-292) -/

/-- The two statements
`std::copy(v.begin(), v.end()-1, std::ostream_iterator<string>(dataLine, ","))` and
`dataLine << (string)v.back()`: every element but the last is written followed by
a comma, then the last one is written. Only reached with `v` non-empty. -/
def writeJoined (dataLine : String) (v : List KeyValue) : String :=
  match v.getLast? with
  | none => dataLine
  | some back =>
    (v.dropLast.foldl (fun out kv => out ++ kv.toStdString ++ ",") dataLine)
      ++ back.toStdString

/-- Body of the `do` loop from `dataLine << m.name` to `dataLine << '\n'`: what
one measurement appends to the stream `dataLine`. -/
def appendLine (S : StdSort) (dataLine : String) (m : Measurement) : String :=
  let d1 := dataLine ++ m.name
  let d2 := if !m.tags.isEmpty then writeJoined (d1.push ',') (S.run m.tags) else d1
  let d3 := d2.push ' '
  let d4 := if !m.fields.isEmpty then writeJoined d3 (S.run m.fields) else d3
  let d5 := if m.haveTimestamp then d4 ++ " " ++ Measurement.streamLongLong m.ts else d4
  d5.push '\n'

/-- The line of one measurement: what it appends to an empty stream. -/
def encodeLine (S : StdSort) (m : Measurement) : String :=
  appendLine S "" m

/-! ## Worker: URL assembly (lines 229-255) -/

/-- The stream `url` after lines 229-255, for the front measurement `m`. -/
def buildUrl (c : Connection) (m : Measurement) : String :=
  let first := true
  let url := c.serverUrl
  let url := url ++ "/write"
  let (url, first) :=
    if c.database ≠ "" then (url ++ (if first then "?" else "&") ++ "db=" ++ c.database, false)
    else (url, first)
  let (url, first) :=
    if c.user ≠ "" then (url ++ (if first then "?" else "&") ++ "u=" ++ c.user, false)
    else (url, first)
  let (url, first) :=
    if c.password ≠ "" then (url ++ (if first then "?" else "&") ++ "p=" ++ c.password, false)
    else (url, first)
  if m.havePrecision && m.precision ≠ "ns" then
    url ++ (if first then "?" else "&") ++ "precision=" ++ m.precision
  else
    url ++ (if first then "?" else "&") ++ "precision=" ++ c.defaultPrecision

/-! ## Worker: grouping and drain loops (lines 225-315) -/

/-- One HTTP request handed to `curl_easy_perform`: `CURLOPT_URL` and `CURLOPT_POSTFIELDS`. -/
structure Request where
  url : String
  data : String
deriving DecidableEq, Repr

/-- The `do ... while (!bufferToProcess->empty() && m.precision == lastPrecision)` loop.
Arguments: the working copy `m`, the stream `dataLine`, the queue. Each round pops
the queue, appends the line of `m`, and if the queue is not empty assigns its front
to `m` with `operator=`. Returns the stream and the queue left. The loop is only
entered with a non-empty queue. -/
def groupLoop (S : StdSort) (lastPrecision : String) :
    Measurement → String → List Measurement → String × List Measurement
  | _, dataLine, [] => (dataLine, [])
  | m, dataLine, _ :: rest =>
    let dataLine1 := appendLine S dataLine m
    match rest with
    | [] => (dataLine1, [])
    | front :: _ =>
      let m1 := m.assign front
      if m1.precision = lastPrecision then groupLoop S lastPrecision m1 dataLine1 rest
      else (dataLine1, rest)

/-- What a drain leaves behind: the requests performed in order, the number of
`curl_easy_perform() failed` errors logged, and the queue at loop exit. -/
structure DrainResult where
  requests : List Request
  errors : Nat
  queue : List Measurement
deriving DecidableEq, Repr

/-- The `while (!bufferToProcess->empty())` loop. `perform k r` is the outcome of the
`k`-th `curl_easy_perform` (`true` for `CURLE_OK`). The first argument bounds the
number of rounds; `drain` supplies the queue length, which is always enough. -/
def drainLoop (S : StdSort) (c : Connection) (perform : Nat → Request → Bool) :
    Nat → Nat → List Measurement → DrainResult
  | 0, _, queue => ⟨[], 0, queue⟩
  | _ + 1, _, [] => ⟨[], 0, []⟩
  | fuel + 1, k, front :: rest =>
    let m := Measurement.copy front
    let url := buildUrl c m
    let lastPrecision := m.precision
    let grp := groupLoop S lastPrecision m "" (front :: rest)
    let req : Request := ⟨url, grp.1⟩
    let out := drainLoop S c perform fuel (k + 1) grp.2
    ⟨req :: out.requests, (if perform k req then 0 else 1) + out.errors, out.queue⟩

/-- The drain of one queue, run to completion. -/
def drain (S : StdSort) (c : Connection) (perform : Nat → Request → Bool)
    (queue : List Measurement) : DrainResult :=
  drainLoop S c perform queue.length 0 queue

/-! ## Worker: one pass of the flush loop (lines 179-322) -/

/-- Outcomes of the transport calls of one pass: whether `curl_easy_init` returned a
handle, whether the two checked `curl_easy_setopt` calls returned `CURLE_OK`, and the
outcome of each `curl_easy_perform`. -/
structure Curl where
  easyInit : Bool
  setFollowLocation : Bool
  setSslVerifyPeer : Bool
  perform : Nat → Request → Bool

/-- Result of one pass: the connection, the requests performed, the number of errors
logged, and whether `worker` returned (the thread ended) during the pass. -/
structure PassResult where
  conn : Connection
  requests : List Request
  errors : Nat
  returned : Bool
deriving DecidableEq, Repr

/-- One pass of the body of the `while` loop of `Connection::worker`, after the sleep:
buffer switch under the lock, then, if `bufferToProcess` is set, the drain of that
queue. -/
def workerPass (S : StdSort) (curl : Curl) (c : Connection) : PassResult :=
  let sw := switchBuffer c
  match sw.2 with
  | none => ⟨sw.1, [], 0, false⟩
  | some bufferToProcess =>
    if curl.easyInit then
      if !curl.setFollowLocation then ⟨sw.1, [], 1, true⟩
      else if !curl.setSslVerifyPeer then ⟨sw.1, [], 1, true⟩
      else
        let out := drain S sw.1 curl.perform (sw.1.buffer bufferToProcess)
        ⟨sw.1.setBuffer bufferToProcess out.queue, out.requests, out.errors, false⟩
    else ⟨sw.1, [], 0, false⟩

/-! ## An executable `std::sort` -/

/-- Insertion of one element before the first element that compares greater. -/
def insertByKey (x : KeyValue) : List KeyValue → List KeyValue
  | [] => [x]
  | y :: ys => if tagsVectorComparator x y then x :: y :: ys else y :: insertByKey x ys

/-- Insertion sort by key. -/
def sortByKey : List KeyValue → List KeyValue
  | [] => []
  | x :: xs => insertByKey x (sortByKey xs)

/-! ## Properties of the comparator and of the executable sort -/

theorem stringLess_asymm (a b : List Char) : stringLess a b = false ∨ stringLess b a = false := by
  induction a generalizing b with
  | nil => right; cases b <;> simp [stringLess]
  | cons x xs ih =>
    cases b with
    | nil => left; simp [stringLess]
    | cons y ys =>
      simp only [stringLess]
      rcases ih ys with h | h <;> split_ifs <;> simp_all <;> omega

theorem stringLess_not_trans (a b c : List Char) (h1 : stringLess b a = false)
    (h2 : stringLess c b = false) : stringLess c a = false := by
  induction a generalizing b c with
  | nil => cases c <;> cases b <;> simp_all [stringLess]
  | cons x xs ih =>
    cases b with
    | nil => cases c <;> simp_all [stringLess]
    | cons y ys =>
      cases c with
      | nil => simp [stringLess] at h2
      | cons z zs =>
        simp only [stringLess] at *
        split_ifs at * <;> simp_all <;> first | omega | exact ih _ _ h1 h2

theorem insertByKey_perm (x : KeyValue) (l : List KeyValue) :
    List.Perm (insertByKey x l) (x :: l) := by
  induction l with
  | nil => simp [insertByKey]
  | cons y ys ih =>
    simp only [insertByKey]
    split_ifs
    · exact List.Perm.refl _
    · exact (List.Perm.cons y ih).trans (List.Perm.swap x y ys)

theorem insertByKey_ordered (x : KeyValue) (l : List KeyValue) (h : KeyOrdered l) :
    KeyOrdered (insertByKey x l) := by
  induction l with
  | nil => simp [insertByKey, KeyOrdered]
  | cons y ys ih =>
    have hy : ∀ b ∈ ys, tagsVectorComparator b y = false := (List.pairwise_cons.mp h).1
    have hys : KeyOrdered ys := (List.pairwise_cons.mp h).2
    simp only [insertByKey]
    by_cases hxy : tagsVectorComparator x y = true
    · rw [if_pos hxy]
      have hyx : tagsVectorComparator y x = false := by
        rcases stringLess_asymm x.name.data y.name.data with h' | h'
        · simp [tagsVectorComparator, h'] at hxy
        · exact h'
      refine List.pairwise_cons.mpr ⟨?_, h⟩
      intro b hb
      rcases List.mem_cons.mp hb with rfl | hb
      · exact hyx
      · exact stringLess_not_trans _ _ _ hyx (hy b hb)
    · rw [if_neg hxy]
      refine List.pairwise_cons.mpr ⟨?_, ih hys⟩
      intro b hb
      rcases List.mem_cons.mp ((insertByKey_perm x ys).mem_iff.mp hb) with rfl | hb
      · simpa using hxy
      · exact hy b hb

theorem sortByKey_perm (l : List KeyValue) : List.Perm (sortByKey l) l := by
  induction l with
  | nil => exact List.Perm.refl _
  | cons x xs ih => exact (insertByKey_perm x (sortByKey xs)).trans (List.Perm.cons x ih)

theorem sortByKey_ordered (l : List KeyValue) : KeyOrdered (sortByKey l) := by
  induction l with
  | nil => simp [sortByKey, KeyOrdered]
  | cons x xs ih => exact insertByKey_ordered x _ ih

/-- The executable sort as an instance of the library contract. -/
def insertionStdSort : StdSort := ⟨sortByKey, sortByKey_perm, sortByKey_ordered⟩

/-! ## Definitions that follow the specification's wording -/

/-- The optional timestamp of a measurement: `ts` when `haveTimestamp` is set. -/
def Measurement.timestampOpt (m : Measurement) : Option Int :=
  if m.haveTimestamp then some m.ts else none

/-- The optional precision override of a measurement: `precision` when
`havePrecision` is set. -/
def Measurement.precisionOpt (m : Measurement) : Option String :=
  if m.havePrecision then some m.precision else none

/-- The line as the specification words it: the name; a comma and the comma-joined
`name=value` tags when there is at least one tag; a space; the comma-joined
`name=value` fields; a space and the decimal timestamp when one is set; a newline.
The tags and fields are given in the order they are written. -/
def specLine (name : String) (tagsInOrder fieldsInOrder : List KeyValue)
    (timestamp : Option Int) : String :=
  name
    ++ (if tagsInOrder = [] then ""
        else "," ++ ",".intercalate (tagsInOrder.map (fun kv => kv.name ++ "=" ++ kv.value)))
    ++ " "
    ++ ",".intercalate (fieldsInOrder.map (fun kv => kv.name ++ "=" ++ kv.value))
    ++ (match timestamp with
        | none => ""
        | some t => " " ++ Measurement.streamLongLong t)
    ++ "\n"

/-- Effective precision as the specification words it: the measurement's own
override if set and not `"ns"`, otherwise the session default. -/
def effectivePrecision (defaultPrecision : String) (m : Measurement) : String :=
  if m.havePrecision && m.precision ≠ "ns" then m.precision else defaultPrecision

/-- Request URL as the specification words it: the server URL, `/write`, then the
present query parameters in the order `db`, `u`, `p`, `precision`, the first one
after `?` and the others after `&`. -/
def specUrl (serverUrl database user password precision : String) : String :=
  serverUrl ++ "/write" ++ "?" ++ "&".intercalate
    ((if database ≠ "" then ["db=" ++ database] else [])
      ++ (if user ≠ "" then ["u=" ++ user] else [])
      ++ (if password ≠ "" then ["p=" ++ password] else [])
      ++ ["precision=" ++ precision])

/-- Two measurements store the same precision string. -/
def sameStoredPrecision (a b : Measurement) : Bool :=
  a.precision == b.precision

/-- Two measurements have the same effective precision. -/
def sameEffectivePrecision (defaultPrecision : String) (a b : Measurement) : Bool :=
  effectivePrecision defaultPrecision a == effectivePrecision defaultPrecision b

/-- Stored precision of the first measurement of a run. -/
def runPrecision : List Measurement → String
  | [] => ""
  | m :: _ => m.precision

/-- Loop test of the `do ... while`, seen from the next queue element `x`: after
`m = front` the working copy holds `x.precision` when `x.havePrecision` and keeps
`lastPrecision` otherwise. -/
def continuesRun (lastPrecision : String) (x : Measurement) : Bool :=
  !x.havePrecision || x.precision == lastPrecision

/-- Request the code builds for a run: URL from the run's first measurement, body
the lines of the run in order (no run is empty). -/
def runRequest (S : StdSort) (c : Connection) : List Measurement → Request
  | [] => ⟨"", ""⟩
  | m :: ms => ⟨buildUrl c m, String.join ((m :: ms).map (encodeLine S))⟩

/-- The groups a drain forms, as lists of measurements: the front measurement and the
following ones that pass the loop test, then the groups of what is left. The first
argument bounds the number of groups as in `drainLoop`. -/
def groupsLoop : Nat → List Measurement → List (List Measurement)
  | 0, _ => []
  | _ + 1, [] => []
  | fuel + 1, front :: rest =>
    (front :: rest.takeWhile (continuesRun front.precision))
      :: groupsLoop fuel (rest.dropWhile (continuesRun front.precision))

/-- The groups of a whole drain. -/
def drainGroups (queue : List Measurement) : List (List Measurement) :=
  groupsLoop queue.length queue

/-- A chain of `tag(k, v)` calls, first pair first. -/
def Measurement.tagAll (m : Measurement) (kvs : List (String × String)) : Measurement :=
  kvs.foldl (fun acc kv => acc.tag kv.1 kv.2) m

/-- The pair `tag(k, v)` stores: the value between double quotes. -/
def quotedTag (kv : String × String) : KeyValue :=
  ⟨kv.1, "\"" ++ kv.2 ++ "\""⟩

/-! ## Interleavings of producer and worker steps -/

/-- Where the worker thread stands in the body of its loop (lines 179-322):
before the locked section; after it, holding the local `bufferToProcess`
(`none` for `nullptr`), the lock released; at the test of the drain loop (line 225)
with the number of requests performed so far in this pass; or returned. -/
inductive WorkerPc where
  | atSwitch
  | atDrain (bufferToProcess : Option BufferId)
  | inLoop (bufferToProcess : BufferId) (k : Nat)
  | returned
deriving DecidableEq, Repr

/-- A step of the system: a producer's call of `enqueue`, or the next section of the
worker, with the transport outcomes it meets. -/
inductive Step where
  | enqueue (m : Measurement)
  | worker (curl : Curl)

/-- The connection shared by the threads, the worker's position, and every request
performed so far, oldest first. -/
structure System where
  conn : Connection
  pc : WorkerPc
  sent : List Request

/-- A system whose worker is about to run its first pass. -/
def System.start (c : Connection) : System :=
  ⟨c, WorkerPc.atSwitch, []⟩

/-- Effect of one step. A producer step is `enqueue` (it only needs `bufferMutex`,
which the worker holds during the locked section alone). A worker step runs the
worker's next section:
* at `atSwitch`, the locked section (lines 180-197);
* at `atDrain none`, nothing: the pass is over;
* at `atDrain (some b)`, the transport set-up (lines 201-223): without a handle the
  pass is over, a refused option makes `worker` return, otherwise the drain loop is
  entered;
* at `inLoop b k`, the loop test and, if queue `b` is not empty, one round of the
  drain loop on queue `b` as it is now (lines 225-315): one request; if it is empty
  the pass is over (lines 317-321).
Producer steps can fall between any two worker steps, in particular between the
switch and the drain and between two rounds. A producer call that falls inside a
round is not described by this relation. -/
def System.step (S : StdSort) (st : System) : Step → System
  | Step.enqueue m => { st with conn := st.conn.enqueue m }
  | Step.worker curl =>
    match st.pc with
    | WorkerPc.atSwitch =>
      let sw := switchBuffer st.conn
      { st with conn := sw.1, pc := WorkerPc.atDrain sw.2 }
    | WorkerPc.atDrain none => { st with pc := WorkerPc.atSwitch }
    | WorkerPc.atDrain (some bufferToProcess) =>
      if curl.easyInit then
        if !curl.setFollowLocation then { st with pc := WorkerPc.returned }
        else if !curl.setSslVerifyPeer then { st with pc := WorkerPc.returned }
        else { st with pc := WorkerPc.inLoop bufferToProcess 0 }
      else { st with pc := WorkerPc.atSwitch }
    | WorkerPc.inLoop bufferToProcess k =>
      match st.conn.buffer bufferToProcess with
      | [] => { st with pc := WorkerPc.atSwitch }
      | front :: rest =>
        let out := drainLoop S st.conn curl.perform 1 k (front :: rest)
        { conn := st.conn.setBuffer bufferToProcess out.queue,
          pc := WorkerPc.inLoop bufferToProcess (k + 1),
          sent := st.sent ++ out.requests }
    | WorkerPc.returned => st

/-- Effect of a sequence of steps. -/
def System.run (S : StdSort) (st : System) (steps : List Step) : System :=
  steps.foldl (System.step S) st

/-- The measurements enqueued by a sequence of steps, in order. -/
def enqueuedBy : List Step → List Measurement
  | [] => []
  | Step.enqueue m :: rest => m :: enqueuedBy rest
  | Step.worker _ :: rest => enqueuedBy rest

/-- FIFO preservation as the specification words it, for the state reached by a
sequence of steps: the bodies sent so far, concatenated in the order sent, are the
concatenated lines of a prefix of the measurements enqueued, in enqueue order. -/
def SentIsPrefix (S : StdSort) (steps : List Step) (st : System) : Prop :=
  ∃ sentMs : List Measurement,
    sentMs <+: enqueuedBy steps
      ∧ String.join (st.sent.map Request.data) = String.join (sentMs.map (encodeLine S))

/-! ## Example data -/

/-- A fresh connection with a database and no credentials (default precision `"ms"`). -/
def exConn : Connection := Connection.create "http://localhost:8086" "metrics" "" ""

/-- Measurement `m1("cpu", precision = ms)`. -/
def exM1 : Measurement := (Measurement.mkWithPrecision "cpu" "ms" false 0).fieldLongLong "load" 1

/-- Measurement `m2("cpu", precision = ms)`. -/
def exM2 : Measurement := (Measurement.mkWithPrecision "cpu" "ms" false 0).fieldLongLong "load" 2

/-- Measurement `m3("mem", precision = s)`. -/
def exM3 : Measurement := (Measurement.mkWithPrecision "mem" "s" false 0).fieldLongLong "free" 3

/-- A fourth measurement, enqueued later. -/
def exM4 : Measurement := (Measurement.mkWithPrecision "cpu" "ms" false 0).fieldLongLong "load" 4

/-- A transport on which every call succeeds. -/
def exCurl : Curl := ⟨true, true, true, fun _ _ => true⟩

/-- A measurement without precision override. -/
def exNoOverride : Measurement := (Measurement.mkNamed "disk" false 0).fieldLongLong "used" 5

/-- A measurement whose override is the nanosecond unit. -/
def exNs : Measurement := (Measurement.mkWithPrecision "net" "ns" false 0).fieldLongLong "rx" 6

/-- A measurement tagged `b` then `a`. -/
def exTagged : Measurement :=
  ((Measurement.mkNamed "cpu" false 0).tag "b" "2").tag "a" "1"

/-- One pass in which a producer runs between the switch and the drain: `m1` is
enqueued, the worker runs its locked section, `m4` is enqueued, the worker sets up
the transport, runs one round of the drain loop and finds the queue empty. -/
def exRace : List Step :=
  [Step.enqueue exM1, Step.worker exCurl, Step.enqueue exM4, Step.worker exCurl,
   Step.worker exCurl, Step.worker exCurl]

/-- The same schedule followed by a further enqueue and a full pass. -/
def exRaceThenPass : List Step :=
  exRace ++ [Step.enqueue exM2, Step.worker exCurl, Step.worker exCurl, Step.worker exCurl,
    Step.worker exCurl]

/-- A measurement with an override and a timestamp. -/
def exStamped : Measurement :=
  ((Measurement.mkWithPrecision "mem" "s" false 0).fieldLongLong "free" 3).timestamp 1700000000

/-- A measurement built in storage whose `haveTimestamp` byte held `true` and whose
`ts` word held 42; `timestamp()` is never called on it. -/
def exGarbage : Measurement := (Measurement.mkNamed "cpu" true 42).fieldLongLong "load" 1

/-- A measurement with two tags of the same key. -/
def exSameKey : Measurement :=
  (((Measurement.mkNamed "cpu" false 0).tag "k" "2").tag "a" "x").tag "k" "1"

/-! ## Streams and lines -/

theorem push_eq_append (s : String) (ch : Char) : s.push ch = s ++ String.singleton ch := by
  apply String.ext
  simp [String.singleton]

theorem join_cons (a : String) (l : List String) : String.join (a :: l) = a ++ String.join l := by
  apply String.ext
  simp

theorem join_append (l1 l2 : List String) :
    String.join (l1 ++ l2) = String.join l1 ++ String.join l2 := by
  apply String.ext
  simp

theorem intercalate_go (acc sep : String) (l : List String) :
    String.intercalate.go acc sep l = acc ++ String.join (l.map (fun a => sep ++ a)) := by
  induction l generalizing acc with
  | nil => simp [String.intercalate.go, String.join]
  | cons x xs ih =>
    simp only [String.intercalate.go, List.map_cons, join_cons]
    rw [ih]
    simp [String.append_assoc]

theorem writeJoined_cons (d : String) (x : KeyValue) (xs : List KeyValue) :
    writeJoined d (x :: xs)
      = d ++ (x.toStdString ++ String.join (xs.map (fun kv => "," ++ kv.toStdString))) := by
  induction xs generalizing x d with
  | nil => simp [writeJoined, String.join]
  | cons y ys ih =>
    have h := ih (d ++ x.toStdString ++ ",") y
    cases hlast : (y :: ys).getLast? with
    | none => simp at hlast
    | some back =>
      simp only [writeJoined, hlast, List.getLast?_cons_cons, List.dropLast_cons₂,
        List.foldl_cons, List.map_cons, join_cons] at h ⊢
      rw [h]
      simp [String.append_assoc]

/-- Comma-separated writing of a vector: the effect of `writeJoined` on the stream. -/
theorem writeJoined_eq (d : String) (v : List KeyValue) :
    writeJoined d v = d ++ ",".intercalate (v.map KeyValue.toStdString) := by
  cases v with
  | nil => simp [writeJoined, String.intercalate]
  | cons x xs =>
    rw [writeJoined_cons]
    simp [String.intercalate, intercalate_go, List.map_map, Function.comp_def]

theorem toStdString_eq (kv : KeyValue) : kv.toStdString = kv.name ++ "=" ++ kv.value := by
  simp [KeyValue.toStdString]

theorem run_eq_nil_iff (S : StdSort) (l : List KeyValue) : S.run l = [] ↔ l = [] := by
  constructor
  · intro h
    have hp := S.perm l
    rw [h] at hp
    exact List.Perm.nil_eq hp |>.symm
  · intro h
    subst h
    exact List.Perm.eq_nil (S.perm [])

theorem appendLine_eq_specLine (S : StdSort) (d : String) (m : Measurement) :
    appendLine S d m
      = d ++ specLine m.name (S.run m.tags) (S.run m.fields) m.timestampOpt := by
  have hk : (fun kv : KeyValue => kv.name ++ "=" ++ kv.value) = KeyValue.toStdString := by
    funext kv
    exact (toStdString_eq kv).symm
  have hsp : String.singleton ' ' = " " := rfl
  have hnl : String.singleton '\n' = "\n" := rfl
  have hcm : String.singleton ',' = "," := rfl
  have hnil : ",".intercalate ([] : List String) = "" := rfl
  have hrun0 : S.run [] = [] := (run_eq_nil_iff S []).mpr rfl
  unfold appendLine specLine Measurement.timestampOpt
  simp only [hk, writeJoined_eq, push_eq_append, hsp, hnl, hcm]
  cases htg : m.tags with
  | nil =>
    cases hfl : m.fields with
    | nil =>
      cases hts : m.haveTimestamp <;>
        simp only [List.isEmpty_nil, Bool.not_true, Bool.false_eq_true, if_false, if_true,
          hrun0, hnil, List.map_nil, String.append_assoc, String.append_empty,
          String.empty_append]
    | cons f fs =>
      cases hts : m.haveTimestamp <;>
        simp only [List.isEmpty_nil, List.isEmpty_cons, Bool.not_true, Bool.not_false,
          Bool.false_eq_true, if_false, if_true, hrun0, hnil, List.map_nil,
          String.append_assoc, String.append_empty, String.empty_append]
  | cons t ts =>
    have hne : S.run (t :: ts) ≠ [] := fun h => by
      have := (run_eq_nil_iff S (t :: ts)).mp h
      simp at this
    cases hfl : m.fields with
    | nil =>
      cases hts : m.haveTimestamp <;>
        simp only [List.isEmpty_nil, List.isEmpty_cons, Bool.not_true, Bool.not_false,
          Bool.false_eq_true, if_false, if_true, hrun0, hnil, hne, List.map_nil,
          String.append_assoc, String.append_empty, String.empty_append]
    | cons f fs =>
      cases hts : m.haveTimestamp <;>
        simp only [List.isEmpty_cons, Bool.not_false, Bool.false_eq_true, if_false, if_true,
          hne, String.append_assoc, String.append_empty, String.empty_append]

theorem appendLine_eq (S : StdSort) (d : String) (m : Measurement) :
    appendLine S d m = d ++ encodeLine S m := by
  rw [encodeLine, appendLine_eq_specLine S d m, appendLine_eq_specLine S "" m,
    String.empty_append]

theorem encodeLine_assign (S : StdSort) (d x : Measurement) :
    encodeLine S (d.assign x) = encodeLine S x := by
  simp only [encodeLine, appendLine_eq_specLine, Measurement.assign, Measurement.timestampOpt]
  cases x.haveTimestamp <;> simp

theorem copy_eq (m : Measurement) : Measurement.copy m = m := rfl

/-! ## The grouping loop -/

theorem groupLoop_eq (S : StdSort) (p : String) (rest : List Measurement) :
    ∀ (m front : Measurement) (d : String), m.precision = p →
      encodeLine S m = encodeLine S front →
      groupLoop S p m d (front :: rest)
        = (d ++ String.join ((front :: rest.takeWhile (continuesRun p)).map (encodeLine S)),
           rest.dropWhile (continuesRun p)) := by
  induction rest with
  | nil =>
    intro m front d _ hl
    simp [groupLoop, appendLine_eq, hl, String.join]
  | cons x rest ih =>
    intro m front d hp hl
    have hprec : (m.assign x).precision = p ↔ continuesRun p x = true := by
      simp only [Measurement.assign, continuesRun, hp]
      cases x.havePrecision <;> simp
    rw [groupLoop]
    by_cases hc : continuesRun p x = true
    · have h1 : (m.assign x).precision = p := hprec.mpr hc
      simp only [h1, if_true]
      rw [ih (m.assign x) x _ h1 (encodeLine_assign S m x)]
      simp [hc, appendLine_eq, hl, join_cons, String.append_assoc]
    · have h1 : ¬ (m.assign x).precision = p := fun h => hc (hprec.mp h)
      simp only [h1, if_false]
      simp [hc, appendLine_eq, hl, join_cons, String.join]

theorem drainLoop_cons (S : StdSort) (c : Connection) (perform : Nat → Request → Bool)
    (fuel k : Nat) (front : Measurement) (rest : List Measurement) :
    drainLoop S c perform (fuel + 1) k (front :: rest)
      = ⟨⟨buildUrl c front,
            String.join ((front :: rest.takeWhile (continuesRun front.precision)).map
              (encodeLine S))⟩
          :: (drainLoop S c perform fuel (k + 1)
                (rest.dropWhile (continuesRun front.precision))).requests,
         (if perform k ⟨buildUrl c front,
            String.join ((front :: rest.takeWhile (continuesRun front.precision)).map
              (encodeLine S))⟩ then 0 else 1)
          + (drainLoop S c perform fuel (k + 1)
                (rest.dropWhile (continuesRun front.precision))).errors,
         (drainLoop S c perform fuel (k + 1)
                (rest.dropWhile (continuesRun front.precision))).queue⟩ := by
  rw [drainLoop]
  simp only [copy_eq]
  have hg := groupLoop_eq S front.precision rest front front "" rfl rfl
  rw [String.empty_append] at hg
  simp only [hg]

theorem length_dropWhile_le (p : Measurement → Bool) (l : List Measurement) :
    (l.dropWhile p).length ≤ l.length := by
  induction l with
  | nil => simp
  | cons x xs ih =>
    simp only [List.dropWhile_cons]
    split
    · exact Nat.le_succ_of_le ih
    · exact Nat.le_refl _

theorem drainLoop_queue (S : StdSort) (c : Connection) (perform : Nat → Request → Bool)
    (fuel : Nat) : ∀ (k : Nat) (q : List Measurement), q.length ≤ fuel →
      (drainLoop S c perform fuel k q).queue = [] := by
  induction fuel with
  | zero =>
    intro k q h
    cases q with
    | nil => simp [drainLoop]
    | cons x xs => simp at h
  | succ n ih =>
    intro k q h
    cases q with
    | nil => simp [drainLoop]
    | cons x xs =>
      rw [drainLoop_cons]
      apply ih
      have := length_dropWhile_le (continuesRun x.precision) xs
      simp only [List.length_cons] at h
      omega

theorem drainLoop_requests_fuel (S : StdSort) (c : Connection)
    (perform1 perform2 : Nat → Request → Bool) (f1 : Nat) :
    ∀ (f2 k1 k2 : Nat) (q : List Measurement), q.length ≤ f1 → q.length ≤ f2 →
      (drainLoop S c perform1 f1 k1 q).requests = (drainLoop S c perform2 f2 k2 q).requests := by
  induction f1 with
  | zero =>
    intro f2 k1 k2 q h1 _
    cases q with
    | nil => cases f2 <;> simp [drainLoop]
    | cons x xs => simp at h1
  | succ n ih =>
    intro f2 k1 k2 q h1 h2
    cases q with
    | nil => cases f2 <;> simp [drainLoop]
    | cons x xs =>
      cases f2 with
      | zero => simp at h2
      | succ f2 =>
        rw [drainLoop_cons, drainLoop_cons]
        have := length_dropWhile_le (continuesRun x.precision) xs
        simp only [List.length_cons] at h1 h2
        simp only [List.cons.injEq, true_and]
        exact ih _ _ _ _ (by omega) (by omega)

theorem drainLoop_join (S : StdSort) (c : Connection) (perform : Nat → Request → Bool)
    (fuel : Nat) : ∀ (k : Nat) (q : List Measurement), q.length ≤ fuel →
      String.join ((drainLoop S c perform fuel k q).requests.map Request.data)
        = String.join (q.map (encodeLine S)) := by
  induction fuel with
  | zero =>
    intro k q h
    cases q with
    | nil => simp [drainLoop]
    | cons x xs => simp at h
  | succ n ih =>
    intro k q h
    cases q with
    | nil => simp [drainLoop]
    | cons x xs =>
      rw [drainLoop_cons]
      have hl := length_dropWhile_le (continuesRun x.precision) xs
      simp only [List.length_cons] at h
      simp only [List.map_cons, join_cons]
      rw [ih _ _ (by omega), String.append_assoc, ← join_append, ← List.map_append,
        List.takeWhile_append_dropWhile]

/-! ## The buffer switch -/

theorem switchBuffer_of_ne (c : Connection) (h : c.buffer c.currentBuffer ≠ []) :
    switchBuffer c
      = ({ c with currentBuffer := c.currentBuffer.other }, some c.currentBuffer.other) := by
  have hne : (!(c.buffer c.currentBuffer).isEmpty) = true := by
    cases hq : c.buffer c.currentBuffer with
    | nil => exact absurd hq h
    | cons x xs => rfl
  unfold switchBuffer
  rw [if_pos hne]
  cases hcur : c.currentBuffer <;> simp [BufferId.other]

theorem switchBuffer_of_nil (c : Connection) (h : c.buffer c.currentBuffer = []) :
    switchBuffer c = (c, none) := by
  unfold switchBuffer
  simp [h]

/-! ## C1, C2: the buffer switch -/

/-- C1 (the code departs from the claim): whenever the active queue is non-empty, the
switch step flips `currentBuffer` to the other queue and then takes `bufferToProcess`
from the flipped pointer. The drain target is therefore the queue that is active
AFTER the switch, never the previously active one that holds the pushed
measurements, and a push made after the switch lands in the drain target. -/
theorem switchBuffer_target_is_new_active (c : Connection)
    (h : c.buffer c.currentBuffer ≠ []) :
    (switchBuffer c).1.currentBuffer = c.currentBuffer.other
      ∧ (switchBuffer c).2 = some (switchBuffer c).1.currentBuffer
      ∧ (switchBuffer c).2 ≠ some c.currentBuffer
      ∧ ∀ m : Measurement,
          ((switchBuffer c).1.enqueue m).buffer c.currentBuffer.other
            = (switchBuffer c).1.buffer c.currentBuffer.other ++ [m] := by
  rw [switchBuffer_of_ne c h]
  refine ⟨rfl, rfl, ?_, ?_⟩
  · cases c.currentBuffer <;> simp [BufferId.other]
  · intro m
    cases c.currentBuffer <;>
      simp [BufferId.other, Connection.enqueue, Connection.buffer, Connection.setBuffer,
        Measurement.copy]

/-- C1 at a concrete state: after one push on a fresh connection the switch hands
queue B to the drain, while the pushed measurement sits in queue A. -/
theorem switchBuffer_target_is_new_active_witness :
    (exConn.enqueue exM1).buffer (exConn.enqueue exM1).currentBuffer ≠ []
      ∧ ((switchBuffer (exConn.enqueue exM1)).1.currentBuffer = BufferId.A.other
        ∧ (switchBuffer (exConn.enqueue exM1)).2
            = some (switchBuffer (exConn.enqueue exM1)).1.currentBuffer
        ∧ (switchBuffer (exConn.enqueue exM1)).2 ≠ some BufferId.A
        ∧ ∀ m : Measurement,
            ((switchBuffer (exConn.enqueue exM1)).1.enqueue m).buffer BufferId.A.other
              = (switchBuffer (exConn.enqueue exM1)).1.buffer BufferId.A.other ++ [m]) :=
  ⟨by decide, switchBuffer_target_is_new_active (exConn.enqueue exM1) (by decide)⟩

/-- C2 (the code departs from the claim): on a fresh connection, after `m1`, `m2`,
`m3` are enqueued, one pass of the worker switches to queue B and drains queue B,
which is empty. No request is sent, the three measurements stay in queue A, and they
are only sent (as two requests, `precision=ms` then `precision=s`) by a later pass
that runs after a further measurement has been enqueued; that further measurement
is left in queue B by the later pass. -/
theorem first_pass_after_enqueue_sends_nothing :
    (workerPass insertionStdSort exCurl
        (((exConn.enqueue exM1).enqueue exM2).enqueue exM3)).requests = []
      ∧ (workerPass insertionStdSort exCurl
          (((exConn.enqueue exM1).enqueue exM2).enqueue exM3)).conn.bufferA = [exM1, exM2, exM3]
      ∧ (workerPass insertionStdSort exCurl
          (((exConn.enqueue exM1).enqueue exM2).enqueue exM3)).conn.currentBuffer = BufferId.B
      ∧ (workerPass insertionStdSort exCurl
          ((workerPass insertionStdSort exCurl
            (((exConn.enqueue exM1).enqueue exM2).enqueue exM3)).conn.enqueue exM4)).requests
          = [⟨"http://localhost:8086/write?db=metrics&precision=ms",
               "cpu load=1i\ncpu load=2i\n"⟩,
             ⟨"http://localhost:8086/write?db=metrics&precision=s", "mem free=3i\n"⟩]
      ∧ (workerPass insertionStdSort exCurl
          ((workerPass insertionStdSort exCurl
            (((exConn.enqueue exM1).enqueue exM2).enqueue exM3)).conn.enqueue exM4)).conn.bufferB
          = [exM4] := by
  decide

/-! ## Runs of equal stored precision -/

theorem splitBy_loop_stored (l : List Measurement) :
    ∀ (a : Measurement) (g : List Measurement) (gs : List (List Measurement)),
      List.splitBy.loop sameStoredPrecision l a g gs
        = gs.reverse ++
            ((g.reverse ++ a :: l.takeWhile (fun x => x.precision == a.precision))
              :: List.splitBy sameStoredPrecision
                  (l.dropWhile (fun x => x.precision == a.precision))) := by
  induction l with
  | nil =>
    intro a g gs
    simp [List.splitBy.loop, List.splitBy]
  | cons b l ih =>
    intro a g gs
    rw [List.splitBy.loop]
    by_cases hab : a.precision = b.precision
    · have h1 : sameStoredPrecision a b = true := by simp [sameStoredPrecision, hab]
      simp only [h1]
      rw [ih b (a :: g) gs]
      simp [hab]
    · have h1 : sameStoredPrecision a b = false := by simp [sameStoredPrecision, hab]
      have h2 : (b.precision == a.precision) = false := by
        simp only [beq_eq_false_iff_ne, ne_eq]
        exact fun h => hab h.symm
      simp only [h1]
      rw [ih b [] ((a :: g).reverse :: gs)]
      have h3 : List.splitBy sameStoredPrecision (b :: l)
          = List.splitBy.loop sameStoredPrecision l b [] [] := rfl
      simp only [List.takeWhile_cons, List.dropWhile_cons, h2, Bool.false_eq_true, if_false]
      rw [h3, ih b [] []]
      simp

theorem splitBy_stored_cons (a : Measurement) (l : List Measurement) :
    List.splitBy sameStoredPrecision (a :: l)
      = (a :: l.takeWhile (fun x => x.precision == a.precision))
          :: List.splitBy sameStoredPrecision
              (l.dropWhile (fun x => x.precision == a.precision)) := by
  have h3 : List.splitBy sameStoredPrecision (a :: l)
      = List.splitBy.loop sameStoredPrecision l a [] [] := rfl
  rw [h3, splitBy_loop_stored]
  simp

theorem takeWhile_continuesRun (p : String) (l : List Measurement)
    (h : ∀ m ∈ l, m.havePrecision = true) :
    l.takeWhile (continuesRun p) = l.takeWhile (fun x => x.precision == p) := by
  induction l with
  | nil => rfl
  | cons x xs ih =>
    have hx : continuesRun p x = (x.precision == p) := by
      simp [continuesRun, h x (List.mem_cons_self x xs)]
    simp only [List.takeWhile_cons, hx]
    rw [ih (fun m hm => h m (List.mem_cons_of_mem x hm))]

theorem dropWhile_continuesRun (p : String) (l : List Measurement)
    (h : ∀ m ∈ l, m.havePrecision = true) :
    l.dropWhile (continuesRun p) = l.dropWhile (fun x => x.precision == p) := by
  induction l with
  | nil => rfl
  | cons x xs ih =>
    have hx : continuesRun p x = (x.precision == p) := by
      simp [continuesRun, h x (List.mem_cons_self x xs)]
    simp only [List.dropWhile_cons, hx]
    rw [ih (fun m hm => h m (List.mem_cons_of_mem x hm))]

theorem mem_of_mem_dropWhile (p : Measurement → Bool) (l : List Measurement) (m : Measurement)
    (h : m ∈ l.dropWhile p) : m ∈ l :=
  (List.dropWhile_suffix p).subset h

theorem mem_of_mem_takeWhile (p : Measurement → Bool) (l : List Measurement) (m : Measurement)
    (h : m ∈ l.takeWhile p) : m ∈ l :=
  (List.takeWhile_prefix p).subset h

theorem drainLoop_requests_stored (S : StdSort) (c : Connection)
    (perform : Nat → Request → Bool) (fuel : Nat) :
    ∀ (k : Nat) (q : List Measurement), q.length ≤ fuel →
      (∀ m ∈ q, m.havePrecision = true) →
      (drainLoop S c perform fuel k q).requests
        = (List.splitBy sameStoredPrecision q).map (runRequest S c) := by
  induction fuel with
  | zero =>
    intro k q h _
    cases q with
    | nil => simp [drainLoop]
    | cons x xs => simp at h
  | succ n ih =>
    intro k q h hq
    cases q with
    | nil => simp [drainLoop]
    | cons x xs =>
      have hxs : ∀ m ∈ xs, m.havePrecision = true :=
        fun m hm => hq m (List.mem_cons_of_mem x hm)
      have hl := length_dropWhile_le (fun y => y.precision == x.precision) xs
      simp only [List.length_cons] at h
      rw [drainLoop_cons, splitBy_stored_cons, takeWhile_continuesRun _ _ hxs,
        dropWhile_continuesRun _ _ hxs]
      simp only [List.map_cons, runRequest]
      rw [ih (k + 1) _ (by omega) (fun m hm => hxs m (mem_of_mem_dropWhile _ _ _ hm))]

/-! ## The request URL -/

theorem buildUrl_eq_specUrl (c : Connection) (m : Measurement) :
    buildUrl c m
      = specUrl c.serverUrl c.database c.user c.password
          (effectivePrecision c.defaultPrecision m) := by
  have hgo : ∀ (acc : String) (l : List String),
      String.intercalate.go acc "&" l = acc ++ String.join (l.map (fun a => "&" ++ a)) :=
    fun acc l => intercalate_go acc "&" l
  have hj : String.join [] = "" := rfl
  unfold buildUrl specUrl effectivePrecision
  by_cases h1 : c.database = "" <;> by_cases h2 : c.user = "" <;>
    by_cases h3 : c.password = "" <;>
    by_cases h4 : (m.havePrecision && decide (m.precision ≠ "ns")) = true <;>
    simp only [h1, h2, h3, h4, ne_eq, not_true_eq_false, not_false_eq_true, if_true, if_false,
      List.nil_append, List.cons_append, List.singleton_append, String.intercalate, hgo,
      List.map_cons, List.map_nil, join_cons, hj,
      String.append_assoc, String.append_empty, Bool.false_eq_true]

theorem effectivePrecision_of_override (dp : String) (m : Measurement)
    (h1 : m.havePrecision = true) (h2 : m.precision ≠ "ns") :
    effectivePrecision dp m = m.precision := by
  simp [effectivePrecision, h1, h2]

/-! ## C3, C4: grouping of a drain into requests -/

/-- C3 (the claim as stated fails): with session default `"ms"`, (1) the queue
[override `"s"`, no override] has two runs of equal effective precision (`s`, `ms`)
but is sent as ONE request under `precision=s`, so the second measurement is not
sent under its own effective precision `ms`; (2) the queue [override `"ns"`,
override `"ms"`] is a single run of effective precision `ms` but is sent as TWO
requests, both under `precision=ms`. -/
theorem drain_not_grouped_by_effective_precision :
    (List.splitBy (sameEffectivePrecision exConn.defaultPrecision) [exM3, exNoOverride]).length = 2
      ∧ effectivePrecision exConn.defaultPrecision exNoOverride = "ms"
      ∧ (drain insertionStdSort exConn exCurl.perform [exM3, exNoOverride]).requests
          = [⟨"http://localhost:8086/write?db=metrics&precision=s",
              "mem free=3i\ndisk used=5i\n"⟩]
      ∧ (List.splitBy (sameEffectivePrecision exConn.defaultPrecision) [exNs, exM1]).length = 1
      ∧ (drain insertionStdSort exConn exCurl.perform [exNs, exM1]).requests
          = [⟨"http://localhost:8086/write?db=metrics&precision=ms", "net rx=6i\n"⟩,
             ⟨"http://localhost:8086/write?db=metrics&precision=ms", "cpu load=1i\n"⟩] := by
  decide

/-- C3 (amended): when every measurement of the drain target has a precision
override, each request body is exactly the maximal run of consecutive measurements
at the front of the remaining queue whose stored override equals that of the run's
first measurement; the number of requests equals the number of maximal contiguous
runs of equal stored override; and every measurement of a run has the effective
precision of the run's first measurement, which is the request's `precision`
parameter. -/
theorem drain_groups_by_stored_override (S : StdSort) (c : Connection)
    (perform : Nat → Request → Bool) (q : List Measurement)
    (h : ∀ m ∈ q, m.havePrecision = true) :
    (drain S c perform q).requests.length = (List.splitBy sameStoredPrecision q).length
      ∧ ∀ (front : Measurement) (rest : List Measurement), q = front :: rest →
          (drain S c perform q).requests
              = ⟨specUrl c.serverUrl c.database c.user c.password
                    (effectivePrecision c.defaultPrecision front),
                  String.join ((front :: rest.takeWhile
                    (fun x => x.precision == front.precision)).map (encodeLine S))⟩
                :: (drain S c perform
                      (rest.dropWhile (fun x => x.precision == front.precision))).requests
            ∧ ∀ m ∈ front :: rest.takeWhile (fun x => x.precision == front.precision),
                effectivePrecision c.defaultPrecision m
                  = effectivePrecision c.defaultPrecision front := by
  refine ⟨?_, ?_⟩
  · unfold drain
    rw [drainLoop_requests_stored S c perform q.length 0 q (Nat.le_refl _) h, List.length_map]
  · intro front rest hq
    subst hq
    have hrest : ∀ m ∈ rest, m.havePrecision = true :=
      fun m hm => h m (List.mem_cons_of_mem front hm)
    refine ⟨?_, ?_⟩
    · unfold drain
      rw [List.length_cons, drainLoop_cons, takeWhile_continuesRun _ _ hrest,
        dropWhile_continuesRun _ _ hrest, buildUrl_eq_specUrl]
      simp only [List.cons.injEq, true_and]
      exact drainLoop_requests_fuel S c perform perform _ _ _ _ _
        (length_dropWhile_le _ rest) (Nat.le_refl _)
    · intro m hm
      rcases List.mem_cons.mp hm with rfl | hm
      · rfl
      · have hp : m.precision = front.precision := by
          simpa using List.mem_takeWhile_imp hm
        have hm1 : m.havePrecision = true := hrest m (mem_of_mem_takeWhile _ _ _ hm)
        have hf1 : front.havePrecision = true := h front (List.mem_cons_self front rest)
        simp [effectivePrecision, hp, hm1, hf1]

/-- C3 (amended) at a concrete queue: overrides `ns`, `ms`, `ms`, `s`. -/
theorem drain_groups_by_stored_override_witness :
    (∀ m ∈ [exNs, exM1, exM2, exM3], m.havePrecision = true)
      ∧ ((drain insertionStdSort exConn exCurl.perform [exNs, exM1, exM2, exM3]).requests.length
          = (List.splitBy sameStoredPrecision [exNs, exM1, exM2, exM3]).length
        ∧ ∀ (front : Measurement) (rest : List Measurement),
            [exNs, exM1, exM2, exM3] = front :: rest →
            (drain insertionStdSort exConn exCurl.perform [exNs, exM1, exM2, exM3]).requests
                = ⟨specUrl exConn.serverUrl exConn.database exConn.user exConn.password
                      (effectivePrecision exConn.defaultPrecision front),
                    String.join ((front :: rest.takeWhile
                      (fun x => x.precision == front.precision)).map
                        (encodeLine insertionStdSort))⟩
                  :: (drain insertionStdSort exConn exCurl.perform
                        (rest.dropWhile (fun x => x.precision == front.precision))).requests
              ∧ ∀ m ∈ front :: rest.takeWhile (fun x => x.precision == front.precision),
                  effectivePrecision exConn.defaultPrecision m
                    = effectivePrecision exConn.defaultPrecision front)
      ∧ (drain insertionStdSort exConn exCurl.perform [exNs, exM1, exM2, exM3]).requests.length
          = 3 :=
  ⟨by decide,
   drain_groups_by_stored_override insertionStdSort exConn exCurl.perform
     [exNs, exM1, exM2, exM3] (by decide),
   by decide⟩

theorem precision_eq_runPrecision_aux (n : Nat) :
    ∀ q : List Measurement, q.length ≤ n →
      ∀ run ∈ List.splitBy sameStoredPrecision q, ∀ m ∈ run, m.precision = runPrecision run := by
  induction n with
  | zero =>
    intro q hq
    cases q with
    | nil => simp
    | cons a l => simp at hq
  | succ n ih =>
    intro q hq
    cases q with
    | nil => simp
    | cons a l =>
      intro run hrun m hm
      rw [splitBy_stored_cons] at hrun
      rcases List.mem_cons.mp hrun with rfl | hrun
      · rcases List.mem_cons.mp hm with rfl | hm
        · rfl
        · simpa [runPrecision] using List.mem_takeWhile_imp hm
      · have hl := length_dropWhile_le (fun x => x.precision == a.precision) l
        simp only [List.length_cons] at hq
        exact ih _ (by omega) run hrun m hm

theorem precision_eq_runPrecision (q : List Measurement) :
    ∀ run ∈ List.splitBy sameStoredPrecision q, ∀ m ∈ run, m.precision = runPrecision run :=
  precision_eq_runPrecision_aux q.length q (Nat.le_refl _)

theorem head_dropWhile_false (p : Measurement → Bool) (l : List Measurement) :
    ∀ (b : Measurement) (l2 : List Measurement), l.dropWhile p = b :: l2 → p b = false := by
  induction l with
  | nil => intro b l2 h; simp at h
  | cons x xs ih =>
    intro b l2 h
    by_cases hx : p x = true
    · rw [List.dropWhile_cons, if_pos hx] at h
      exact ih b l2 h
    · rw [List.dropWhile_cons, if_neg hx] at h
      have hb : x = b := (List.cons.inj h).1
      subst hb
      simpa using hx

theorem runs_differ_aux (n : Nat) :
    ∀ q : List Measurement, q.length ≤ n →
      List.Chain' (fun r1 r2 => runPrecision r1 ≠ runPrecision r2)
        (List.splitBy sameStoredPrecision q) := by
  induction n with
  | zero =>
    intro q hq
    cases q with
    | nil => simp
    | cons a l => simp at hq
  | succ n ih =>
    intro q hq
    cases q with
    | nil => simp
    | cons a l =>
      have hl := length_dropWhile_le (fun x => x.precision == a.precision) l
      simp only [List.length_cons] at hq
      have hrest := ih (l.dropWhile (fun x => x.precision == a.precision)) (by omega)
      rw [splitBy_stored_cons]
      cases hd : l.dropWhile (fun x => x.precision == a.precision) with
      | nil => simp
      | cons b l2 =>
        rw [hd] at hrest
        rw [splitBy_stored_cons] at hrest ⊢
        refine List.Chain'.cons ?_ hrest
        have hb := head_dropWhile_false _ l b l2 hd
        simp only [runPrecision, ne_eq]
        intro hab
        simp [hab] at hb

theorem runs_differ (q : List Measurement) :
    List.Chain' (fun r1 r2 => runPrecision r1 ≠ runPrecision r2)
      (List.splitBy sameStoredPrecision q) :=
  runs_differ_aux q.length q (Nat.le_refl _)

/-- C4: when every measurement of the drain target carries an explicit override
other than `"ns"`, the requests of the drain are, in FIFO order, one per maximal
contiguous run of equal precision: the URL carries `precision=` the run's precision
and the body is the run's encoded lines in order. Every measurement of a run has the
run's precision, neighbouring runs differ in precision (the runs are maximal), no
run is empty, the runs concatenate to the queue, and the queue ends empty. -/
theorem drain_one_request_per_run (S : StdSort) (c : Connection)
    (perform : Nat → Request → Bool) (q : List Measurement)
    (h : ∀ m ∈ q, m.havePrecision = true ∧ m.precision ≠ "ns") :
    (drain S c perform q).requests
        = (List.splitBy sameStoredPrecision q).map
            (fun run => ⟨specUrl c.serverUrl c.database c.user c.password (runPrecision run),
                         String.join (run.map (encodeLine S))⟩)
      ∧ (∀ run ∈ List.splitBy sameStoredPrecision q, ∀ m ∈ run, m.precision = runPrecision run)
      ∧ List.Chain' (fun r1 r2 => runPrecision r1 ≠ runPrecision r2)
          (List.splitBy sameStoredPrecision q)
      ∧ [] ∉ List.splitBy sameStoredPrecision q
      ∧ (List.splitBy sameStoredPrecision q).flatten = q
      ∧ (drain S c perform q).queue = [] := by
  refine ⟨?_, precision_eq_runPrecision q, runs_differ q, List.nil_not_mem_splitBy _ q,
    List.flatten_splitBy _ q, ?_⟩
  · unfold drain
    rw [drainLoop_requests_stored S c perform q.length 0 q (Nat.le_refl _)
      (fun m hm => (h m hm).1)]
    apply List.map_congr_left
    intro run hrun
    cases run with
    | nil => exact absurd hrun (List.nil_not_mem_splitBy _ q)
    | cons m ms =>
      have hmq : m ∈ q := by
        have : m ∈ (List.splitBy sameStoredPrecision q).flatten :=
          List.mem_flatten.mpr ⟨m :: ms, hrun, List.mem_cons_self m ms⟩
        rwa [List.flatten_splitBy] at this
      simp only [runRequest, runPrecision]
      rw [buildUrl_eq_specUrl, effectivePrecision_of_override _ m (h m hmq).1 (h m hmq).2]
  · exact drainLoop_queue S c perform q.length 0 q (Nat.le_refl _)

/-- C4 at the precisions `[ms, ms, s, ms]`: exactly three requests, with
`precision` equal to `ms`, `s`, `ms`. -/
theorem drain_one_request_per_run_witness :
    (∀ m ∈ [exM1, exM2, exM3, exM4], m.havePrecision = true ∧ m.precision ≠ "ns")
      ∧ ((drain insertionStdSort exConn exCurl.perform [exM1, exM2, exM3, exM4]).requests
            = (List.splitBy sameStoredPrecision [exM1, exM2, exM3, exM4]).map
                (fun run =>
                  ⟨specUrl exConn.serverUrl exConn.database exConn.user exConn.password
                      (runPrecision run),
                    String.join (run.map (encodeLine insertionStdSort))⟩)
          ∧ (∀ run ∈ List.splitBy sameStoredPrecision [exM1, exM2, exM3, exM4],
              ∀ m ∈ run, m.precision = runPrecision run)
          ∧ List.Chain' (fun r1 r2 => runPrecision r1 ≠ runPrecision r2)
              (List.splitBy sameStoredPrecision [exM1, exM2, exM3, exM4])
          ∧ [] ∉ List.splitBy sameStoredPrecision [exM1, exM2, exM3, exM4]
          ∧ (List.splitBy sameStoredPrecision [exM1, exM2, exM3, exM4]).flatten
              = [exM1, exM2, exM3, exM4]
          ∧ (drain insertionStdSort exConn exCurl.perform [exM1, exM2, exM3, exM4]).queue = [])
      ∧ (drain insertionStdSort exConn exCurl.perform [exM1, exM2, exM3, exM4]).requests
          = [⟨"http://localhost:8086/write?db=metrics&precision=ms",
              "cpu load=1i\ncpu load=2i\n"⟩,
             ⟨"http://localhost:8086/write?db=metrics&precision=s", "mem free=3i\n"⟩,
             ⟨"http://localhost:8086/write?db=metrics&precision=ms", "cpu load=4i\n"⟩] :=
  ⟨by decide,
   drain_one_request_per_run insertionStdSort exConn exCurl.perform
     [exM1, exM2, exM3, exM4] (by decide),
   by decide⟩

/-! ## C8: URL assembly -/

/-- C8: the request URL is the server URL, `/write`, then `db=<database>`,
`u=<user>`, `p=<password>` (each only if non-empty) and `precision=<e>` (always), in
that order, the first present parameter after `?` and every later one after `&`,
where `e` is the front measurement's own precision if it has an override other than
`"ns"`, and the session default otherwise. -/
theorem url_assembly (serverUrl database user password defaultPrecision : String)
    (m : Measurement) :
    buildUrl
        ((Connection.create serverUrl database user password).setDefaultPrecision
          defaultPrecision) m
      = specUrl serverUrl database user password
          (if m.havePrecision = true ∧ m.precision ≠ "ns" then m.precision
           else defaultPrecision) := by
  rw [buildUrl_eq_specUrl]
  simp [Connection.create, Connection.setDefaultPrecision, effectivePrecision]

/-! ## C5, C6, C7: the line encoder and the builders -/

/-- C5: the line of a measurement is its name; a comma and the comma-joined
`name=value` tags when it has at least one tag; a space; the comma-joined
`name=value` fields (nothing without fields); a space and the decimal timestamp
when one is set; a newline. Tags and fields are written in the order the sort leaves
them: a rearrangement of the stored pairs in which no later key is smaller than an
earlier one. Names and values are written as stored. -/
theorem line_encoding (S : StdSort) (m : Measurement) :
    encodeLine S m = specLine m.name (S.run m.tags) (S.run m.fields) m.timestampOpt
      ∧ (S.run m.tags = [] ↔ m.tags = [])
      ∧ List.Perm (S.run m.tags) m.tags ∧ KeyOrdered (S.run m.tags)
      ∧ List.Perm (S.run m.fields) m.fields ∧ KeyOrdered (S.run m.fields)
      ∧ ∀ kv : KeyValue, kv.toStdString = kv.name ++ "=" ++ kv.value := by
  refine ⟨?_, run_eq_nil_iff S m.tags, S.perm _, S.ordered _, S.perm _, S.ordered _,
    toStdString_eq⟩
  rw [encodeLine, appendLine_eq_specLine, String.empty_append]

theorem run_pair (S : StdSort) (x y : KeyValue) (hxy : x ≠ y)
    (h : tagsVectorComparator y x = true) : S.run [x, y] = [y, x] := by
  have hp := S.perm [x, y]
  have ho := S.ordered [x, y]
  have hlen : (S.run [x, y]).length = 2 := by simpa using hp.length_eq
  match hrun : S.run [x, y], hlen with
  | [p, q], _ =>
    rw [hrun] at hp ho
    have hx : x ∈ [p, q] := hp.mem_iff.mpr (by simp)
    have hy : y ∈ [p, q] := hp.mem_iff.mpr (by simp)
    have hpm : p ∈ [x, y] := hp.mem_iff.mp (by simp)
    have hqm : q ∈ [x, y] := hp.mem_iff.mp (by simp)
    have hord : tagsVectorComparator q p = false := by
      simpa [KeyOrdered] using ho
    simp only [List.mem_cons, List.mem_singleton, List.not_mem_nil, or_false] at hx hy hpm hqm
    rcases hpm with rfl | rfl
    · rcases hqm with rfl | rfl
      · rcases hy with rfl | rfl <;> exact absurd rfl hxy
      · rw [h] at hord
        exact absurd hord (by simp)
    · rcases hqm with rfl | rfl
      · rfl
      · rcases hx with rfl | rfl <;> exact absurd rfl hxy

/-- C6 (the claim as stated fails): after `tag("b","2")` and `tag("a","1")` the tag
section of the line is `a="1",b="2"` (the values are stored wrapped in double
quotes), not `a=1,b=2`. -/
theorem tag_values_are_quoted :
    encodeLine insertionStdSort exTagged = "cpu,a=\"1\",b=\"2\" \n"
      ∧ encodeLine insertionStdSort exTagged ≠ "cpu,a=1,b=2 \n"
      ∧ exTagged.tags = [⟨"b", "\"2\""⟩, ⟨"a", "\"1\""⟩] := by
  decide

theorem tagAll_eq (kvs : List (String × String)) :
    ∀ m : Measurement, m.tagAll kvs = { m with tags := m.tags ++ kvs.map quotedTag } := by
  induction kvs with
  | nil =>
    intro m
    simp [Measurement.tagAll]
  | cons kv kvs ih =>
    intro m
    have h := ih (m.tag kv.1 kv.2)
    simp only [Measurement.tagAll, List.foldl_cons] at h ⊢
    rw [h]
    simp [Measurement.tag, quotedTag]

/-- C6 (amended): `tag(k, v)` stores the pair with the value wrapped in double
quotes, so for every measurement built with `tag` calls the tag section of its line
renders each tag as `k="v"`, in ascending key order; `tag("b","2")` then
`tag("a","1")` gives the tag section `a="1",b="2"` whatever the sort does with
equal keys. -/
theorem tag_section_quoted (S : StdSort) (m : Measurement) (kvs : List (String × String)) :
    (m.tagAll kvs).tags = m.tags ++ kvs.map quotedTag
      ∧ (∀ kv : String × String,
          (quotedTag kv).toStdString = kv.1 ++ "=" ++ ("\"" ++ kv.2 ++ "\""))
      ∧ encodeLine S (m.tagAll kvs)
          = specLine m.name (S.run (m.tags ++ kvs.map quotedTag)) (S.run m.fields)
              m.timestampOpt
      ∧ KeyOrdered (S.run (m.tags ++ kvs.map quotedTag))
      ∧ List.Perm (S.run (m.tags ++ kvs.map quotedTag)) (m.tags ++ kvs.map quotedTag)
      ∧ encodeLine S ((Measurement.mkNamed "cpu" false 0).tagAll [("b", "2"), ("a", "1")])
          = "cpu,a=\"1\",b=\"2\" \n" := by
  refine ⟨by rw [tagAll_eq], fun kv => toStdString_eq _, ?_, S.ordered _, S.perm _, ?_⟩
  · rw [encodeLine, appendLine_eq_specLine, String.empty_append, tagAll_eq]
    rfl
  · have hrun : S.run [⟨"b", "\"2\""⟩, ⟨"a", "\"1\""⟩] = [⟨"a", "\"1\""⟩, ⟨"b", "\"2\""⟩] :=
      run_pair S ⟨"b", "\"2\""⟩ ⟨"a", "\"1\""⟩ (by decide) (by decide)
    have hf : S.run [] = [] := (run_eq_nil_iff S _).mpr rfl
    have ht : ((Measurement.mkNamed "cpu" false 0).tagAll [("b", "2"), ("a", "1")]).tags
        = [⟨"b", "\"2\""⟩, ⟨"a", "\"1\""⟩] := rfl
    have hfl : ((Measurement.mkNamed "cpu" false 0).tagAll [("b", "2"), ("a", "1")]).fields
        = [] := rfl
    rw [encodeLine, appendLine_eq_specLine, String.empty_append, ht, hfl, hrun, hf]
    decide

theorem streamLongLong_eq_toString (v : Int) : Measurement.streamLongLong v = toString v := by
  cases v <;> rfl

/-- C7: `field(n, true)` stores a pair rendered `n=t` and `field(n, false)` one
rendered `n=f`; `field(n, v)` for an integer `v` stores a pair rendered `n=`, the
decimal representation of `v`, `i` (negative values carry a minus sign; the two
extremes of the 64-bit range are shown); `field(n, s)` for a string stores a pair
rendered `n=`, then `s` unchanged between double quotes. Each call appends the pair
at the end of the fields. -/
theorem field_encodings (m : Measurement) (n s : String) (v : Int) :
    ((m.fieldBool n true).fields = m.fields ++ [⟨n, "t"⟩]
        ∧ KeyValue.toStdString ⟨n, "t"⟩ = n ++ "=" ++ "t")
      ∧ ((m.fieldBool n false).fields = m.fields ++ [⟨n, "f"⟩]
        ∧ KeyValue.toStdString ⟨n, "f"⟩ = n ++ "=" ++ "f")
      ∧ ((m.fieldLongLong n v).fields = m.fields ++ [⟨n, toString v ++ "i"⟩]
        ∧ KeyValue.toStdString ⟨n, toString v ++ "i"⟩ = n ++ "=" ++ (toString v ++ "i"))
      ∧ ((m.fieldString n s).fields = m.fields ++ [⟨n, "\"" ++ s ++ "\""⟩]
        ∧ KeyValue.toStdString ⟨n, "\"" ++ s ++ "\""⟩ = n ++ "=" ++ ("\"" ++ s ++ "\""))
      ∧ Measurement.streamLongLong 42 = "42"
      ∧ Measurement.streamLongLong (-7) = "-7"
      ∧ Measurement.streamLongLong 0 = "0"
      ∧ Measurement.streamLongLong 9223372036854775807 = "9223372036854775807"
      ∧ Measurement.streamLongLong (-9223372036854775808) = "-9223372036854775808" := by
  refine ⟨⟨rfl, toStdString_eq _⟩, ⟨rfl, toStdString_eq _⟩, ⟨?_, toStdString_eq _⟩,
    ⟨rfl, toStdString_eq _⟩, by decide, by decide, by decide, by decide, by decide⟩
  have hi : String.singleton 'i' = "i" := rfl
  unfold Measurement.fieldLongLong
  rw [streamLongLong_eq_toString, push_eq_append, hi]

/-! ## Passes -/

theorem workerPass_of_nil (S : StdSort) (curl : Curl) (c : Connection)
    (h : c.buffer c.currentBuffer = []) :
    workerPass S curl c = ⟨c, [], 0, false⟩ := by
  unfold workerPass
  rw [switchBuffer_of_nil c h]

/-! ## The worker's sections, run without producer steps in between -/

theorem buildUrl_setBuffer (c : Connection) (b : BufferId) (q : List Measurement)
    (m : Measurement) : buildUrl (c.setBuffer b q) m = buildUrl c m := by
  cases b <;> rfl

theorem setBuffer_setBuffer (c : Connection) (b : BufferId) (q1 q2 : List Measurement) :
    (c.setBuffer b q1).setBuffer b q2 = c.setBuffer b q2 := by
  cases b <;> rfl

theorem setBuffer_self (c : Connection) (b : BufferId) (q : List Measurement)
    (h : c.buffer b = q) : c.setBuffer b q = c := by
  subst h
  cases b <;> rfl

theorem buffer_setBuffer (c : Connection) (b : BufferId) (q : List Measurement) :
    (c.setBuffer b q).buffer b = q := by
  cases b <;> rfl

theorem drainLoop_setBuffer (S : StdSort) (c : Connection) (b : BufferId)
    (q1 : List Measurement) (perform : Nat → Request → Bool) (fuel : Nat) :
    ∀ (k : Nat) (q : List Measurement),
      drainLoop S (c.setBuffer b q1) perform fuel k q = drainLoop S c perform fuel k q := by
  induction fuel with
  | zero => intro k q; rfl
  | succ n ih =>
    intro k q
    cases q with
    | nil => rfl
    | cons x xs =>
      rw [drainLoop_cons, drainLoop_cons, ih, buildUrl_setBuffer]

theorem run_worker_cons (S : StdSort) (st : System) (curl : Curl) (n : Nat) :
    System.run S st (List.replicate (n + 1) (Step.worker curl))
      = System.run S (st.step S (Step.worker curl)) (List.replicate n (Step.worker curl)) := by
  simp [System.run, List.replicate_succ]

/-- Rounds of the drain loop, stepped one at a time with no producer step in between,
end with the queue empty and the requests of the whole drain. -/
theorem run_rounds (S : StdSort) (curl : Curl) (b : BufferId) (fuel : Nat) :
    ∀ (q : List Measurement) (k : Nat) (conn : Connection) (sent : List Request),
      conn.buffer b = q → q.length ≤ fuel →
      ∃ n : Nat,
        System.run S ⟨conn, WorkerPc.inLoop b k, sent⟩ (List.replicate n (Step.worker curl))
          = ⟨conn.setBuffer b (drainLoop S conn curl.perform fuel k q).queue,
             WorkerPc.atSwitch,
             sent ++ (drainLoop S conn curl.perform fuel k q).requests⟩ := by
  induction fuel with
  | zero =>
    intro q k conn sent hq hlen
    cases q with
    | cons x xs => simp at hlen
    | nil =>
      refine ⟨1, ?_⟩
      simp only [List.replicate, System.run, List.foldl, System.step, hq, drainLoop,
        List.append_nil]
      rw [setBuffer_self conn b [] hq]
  | succ f ih =>
    intro q k conn sent hq hlen
    cases q with
    | nil =>
      refine ⟨1, ?_⟩
      simp only [List.replicate, System.run, List.foldl, System.step, hq, drainLoop,
        List.append_nil]
      rw [setBuffer_self conn b [] hq]
    | cons x xs =>
      have hl := length_dropWhile_le (continuesRun x.precision) xs
      simp only [List.length_cons] at hlen
      have hround : drainLoop S conn curl.perform 1 k (x :: xs)
          = ⟨[⟨buildUrl conn x,
                String.join ((x :: xs.takeWhile (continuesRun x.precision)).map
                  (encodeLine S))⟩],
              (if curl.perform k ⟨buildUrl conn x,
                String.join ((x :: xs.takeWhile (continuesRun x.precision)).map
                  (encodeLine S))⟩ then 0 else 1) + 0,
              xs.dropWhile (continuesRun x.precision)⟩ := by
        rw [drainLoop_cons]
        rfl
      obtain ⟨n, hn⟩ := ih (xs.dropWhile (continuesRun x.precision)) (k + 1)
        (conn.setBuffer b (xs.dropWhile (continuesRun x.precision)))
        (sent ++ [⟨buildUrl conn x,
                String.join ((x :: xs.takeWhile (continuesRun x.precision)).map
                  (encodeLine S))⟩])
        (buffer_setBuffer _ _ _) (by omega)
      refine ⟨n + 1, ?_⟩
      rw [run_worker_cons]
      have hstep : System.step S ⟨conn, WorkerPc.inLoop b k, sent⟩ (Step.worker curl)
          = ⟨conn.setBuffer b (xs.dropWhile (continuesRun x.precision)),
             WorkerPc.inLoop b (k + 1),
             sent ++ [⟨buildUrl conn x,
                String.join ((x :: xs.takeWhile (continuesRun x.precision)).map
                  (encodeLine S))⟩]⟩ := by
        simp only [System.step, hq, hround]
      rw [hstep, hn, drainLoop_setBuffer, setBuffer_setBuffer, drainLoop_cons]
      simp only [List.append_assoc, List.singleton_append]

/-- The sections of one pass, stepped with no producer step in between, give the
connection and the requests of `workerPass`. -/
theorem run_pass_eq_workerPass (S : StdSort) (curl : Curl) (c : Connection)
    (sent : List Request) :
    ∃ n : Nat,
      System.run S ⟨c, WorkerPc.atSwitch, sent⟩ (List.replicate n (Step.worker curl))
        = ⟨(workerPass S curl c).conn,
           if (workerPass S curl c).returned then WorkerPc.returned else WorkerPc.atSwitch,
           sent ++ (workerPass S curl c).requests⟩ := by
  by_cases hq : c.buffer c.currentBuffer = []
  · refine ⟨2, ?_⟩
    rw [workerPass_of_nil S curl c hq]
    simp [System.run, List.replicate, System.step, switchBuffer_of_nil c hq]
  · unfold workerPass
    rw [switchBuffer_of_ne c hq]
    cases h1 : curl.easyInit with
    | false =>
      refine ⟨2, ?_⟩
      simp [System.run, List.replicate, System.step, switchBuffer_of_ne c hq, h1]
    | true =>
      cases h2 : curl.setFollowLocation with
      | false =>
        refine ⟨2, ?_⟩
        simp [System.run, List.replicate, System.step, switchBuffer_of_ne c hq, h1, h2]
      | true =>
        cases h3 : curl.setSslVerifyPeer with
        | false =>
          refine ⟨2, ?_⟩
          simp [System.run, List.replicate, System.step, switchBuffer_of_ne c hq, h1, h2, h3]
        | true =>
          obtain ⟨n, hn⟩ := run_rounds S curl c.currentBuffer.other
            ({ c with currentBuffer := c.currentBuffer.other }.buffer c.currentBuffer.other).length
            ({ c with currentBuffer := c.currentBuffer.other }.buffer c.currentBuffer.other) 0
            { c with currentBuffer := c.currentBuffer.other } sent rfl (Nat.le_refl _)
          refine ⟨n + 2, ?_⟩
          rw [run_worker_cons, run_worker_cons]
          have hs : System.step S (System.step S ⟨c, WorkerPc.atSwitch, sent⟩ (Step.worker curl))
              (Step.worker curl)
              = ⟨{ c with currentBuffer := c.currentBuffer.other },
                  WorkerPc.inLoop c.currentBuffer.other 0, sent⟩ := by
            simp [System.step, switchBuffer_of_ne c hq, h1, h2, h3]
          rw [hs, hn]
          simp [drain]

/-! ## C9, C10: order of what is sent, and transport outcomes -/

/-- C9 (the code departs from the claim): the worker drains the queue `currentBuffer`
designates after the switch, the one producers push into, and it does so without the
lock. On a fresh connection, `m1` is enqueued and the worker switches to queue B; a
measurement `m4` enqueued after the switch and before the drain goes to queue B and
is sent in that pass, while the older `m1` stays in queue A: what has been sent is
not the lines of a prefix of what was enqueued. After a further enqueue and pass the
line of `m1` is sent after the line of `m4`. -/
theorem enqueue_after_switch_is_sent_first :
    enqueuedBy exRace = [exM1, exM4]
      ∧ (System.run insertionStdSort (System.start exConn) exRace).sent
          = [⟨"http://localhost:8086/write?db=metrics&precision=ms", "cpu load=4i\n"⟩]
      ∧ (System.run insertionStdSort (System.start exConn) exRace).conn.bufferA = [exM1]
      ∧ (System.run insertionStdSort (System.start exConn) exRace).conn.bufferB = []
      ∧ (System.run insertionStdSort (System.start exConn) exRace).pc = WorkerPc.atSwitch
      ∧ ¬ SentIsPrefix insertionStdSort exRace
            (System.run insertionStdSort (System.start exConn) exRace)
      ∧ enqueuedBy exRaceThenPass = [exM1, exM4, exM2]
      ∧ (System.run insertionStdSort (System.start exConn) exRaceThenPass).sent.map
            Request.data
          = ["cpu load=4i\n", "cpu load=1i\n"] := by
  refine ⟨by decide, by decide, by decide, by decide, by decide, ?_, by decide, by decide⟩
  rintro ⟨sentMs, ⟨rest, hpre⟩, hsent⟩
  have henq : enqueuedBy exRace = [exM1, exM4] := by decide
  have hdata : String.join
      ((System.run insertionStdSort (System.start exConn) exRace).sent.map Request.data)
      = "cpu load=4i\n" := by decide
  rw [henq] at hpre
  rw [hdata] at hsent
  cases sentMs with
  | nil => exact absurd hsent (by decide)
  | cons a l =>
    have ha : a = exM1 := (List.cons.inj hpre).1
    have hl : l ++ rest = [exM4] := (List.cons.inj hpre).2
    subst ha
    cases l with
    | nil => exact absurd hsent (by decide)
    | cons b l2 =>
      have hb : b = exM4 := (List.cons.inj hl).1
      have hl2 : l2 ++ rest = [] := (List.cons.inj hl).2
      have hnil : l2 = [] := (List.append_eq_nil.mp hl2).1
      subst hb
      subst hnil
      exact absurd hsent (by decide)

theorem drainLoop_errors_none (S : StdSort) (c : Connection) (fuel : Nat) :
    ∀ (k : Nat) (q : List Measurement),
      (drainLoop S c (fun _ _ => true) fuel k q).errors = 0 := by
  induction fuel with
  | zero => intro k q; rfl
  | succ n ih =>
    intro k q
    cases q with
    | nil => rfl
    | cons x xs =>
      rw [drainLoop_cons]
      simp [ih]

theorem drainLoop_errors_all (S : StdSort) (c : Connection) (fuel : Nat) :
    ∀ (k : Nat) (q : List Measurement),
      (drainLoop S c (fun _ _ => false) fuel k q).errors
        = (drainLoop S c (fun _ _ => false) fuel k q).requests.length := by
  induction fuel with
  | zero => intro k q; rfl
  | succ n ih =>
    intro k q
    cases q with
    | nil => rfl
    | cons x xs =>
      rw [drainLoop_cons]
      simp [ih, Nat.add_comm]

/-- C10: the requests of a drain and the queue it leaves do not depend on the
outcomes of the sends: for any two outcome assignments the same (URL, body) sequence
is emitted and the queue ends empty, and in both the bodies concatenate to the lines
of the queue, each measurement once, so nothing is sent again after a failure. The
outcome only shows in the error log: no error when every send succeeds, one per
request when every send fails. -/
theorem drain_ignores_send_outcomes (S : StdSort) (c : Connection)
    (perform1 perform2 : Nat → Request → Bool) (q : List Measurement) :
    (drain S c perform1 q).requests = (drain S c perform2 q).requests
      ∧ (drain S c perform1 q).queue = []
      ∧ (drain S c perform2 q).queue = []
      ∧ String.join ((drain S c perform1 q).requests.map Request.data)
          = String.join (q.map (encodeLine S))
      ∧ (drain S c (fun _ _ => true) q).errors = 0
      ∧ (drain S c (fun _ _ => false) q).errors
          = (drain S c perform1 q).requests.length := by
  refine ⟨drainLoop_requests_fuel S c perform1 perform2 _ _ 0 0 q (Nat.le_refl _) (Nat.le_refl _),
    drainLoop_queue S c perform1 _ 0 q (Nat.le_refl _),
    drainLoop_queue S c perform2 _ 0 q (Nat.le_refl _),
    drainLoop_join S c perform1 _ 0 q (Nat.le_refl _),
    drainLoop_errors_none S c _ 0 q, ?_⟩
  unfold drain
  rw [drainLoop_errors_all,
    drainLoop_requests_fuel S c (fun _ _ => false) perform1 _ _ 0 0 q (Nat.le_refl _)
      (Nat.le_refl _)]

/-! ## The comparator and the library order on strings -/

theorem char_lt_iff (a b : Char) : a < b ↔ a.toNat < b.toNat := Iff.rfl

theorem char_eq_of_not_lt (a b : Char) (h1 : ¬ a.toNat < b.toNat) (h2 : ¬ b.toNat < a.toNat) :
    a = b := by
  have h : a.toNat = b.toNat := by omega
  apply Char.ext
  apply UInt32.ext
  exact h

theorem stringLess_iff_lex (l1 : List Char) :
    ∀ l2 : List Char, stringLess l1 l2 = true ↔ List.Lex (· < ·) l1 l2 := by
  induction l1 with
  | nil =>
    intro l2
    cases l2 with
    | nil => simp [stringLess]
    | cons b bs => simp [stringLess, List.Lex.nil]
  | cons a as ih =>
    intro l2
    cases l2 with
    | nil => simp [stringLess]
    | cons b bs =>
      simp only [stringLess]
      by_cases h1 : a.toNat < b.toNat
      · simp only [h1, if_true, true_iff]
        exact List.Lex.rel ((char_lt_iff a b).mpr h1)
      · by_cases h2 : b.toNat < a.toNat
        · simp only [h1, h2, if_true, if_false, Bool.false_eq_true, false_iff]
          intro hlex
          cases hlex with
          | cons h => exact absurd (rfl : a.toNat = a.toNat) (by omega)
          | rel h => exact h1 ((char_lt_iff a b).mp h)
        · have hab : a = b := char_eq_of_not_lt a b h1 h2
          subst hab
          simp only [h1, if_false]
          rw [ih bs]
          exact List.Lex.cons_iff.symm

theorem tagsVectorComparator_iff (a b : KeyValue) :
    tagsVectorComparator a b = true ↔ a.name < b.name := by
  rw [String.lt_iff_toList_lt]
  exact stringLess_iff_lex a.name.data b.name.data

theorem keyOrdered_iff (l : List KeyValue) :
    KeyOrdered l ↔ List.Pairwise (fun a b => a.name ≤ b.name) l := by
  unfold KeyOrdered
  have hrel : ∀ a b : KeyValue, tagsVectorComparator b a = false ↔ a.name ≤ b.name := by
    intro a b
    rw [← not_lt, ← tagsVectorComparator_iff]
    simp
  constructor
  · intro h
    exact h.imp (fun hab => (hrel _ _).mp hab)
  · intro h
    exact h.imp (fun hab => (hrel _ _).mpr hab)

/-! ## Groups of a drain -/

theorem drainLoop_requests_groups (S : StdSort) (c : Connection)
    (perform : Nat → Request → Bool) (fuel : Nat) :
    ∀ (k : Nat) (q : List Measurement),
      (drainLoop S c perform fuel k q).requests = (groupsLoop fuel q).map (runRequest S c) := by
  induction fuel with
  | zero => intro k q; rfl
  | succ n ih =>
    intro k q
    cases q with
    | nil => rfl
    | cons x xs =>
      rw [drainLoop_cons, groupsLoop]
      simp only [List.map_cons, runRequest]
      rw [ih]

theorem groupsLoop_flatten (fuel : Nat) :
    ∀ q : List Measurement, q.length ≤ fuel → (groupsLoop fuel q).flatten = q := by
  induction fuel with
  | zero =>
    intro q h
    cases q with
    | nil => rfl
    | cons x xs => simp at h
  | succ n ih =>
    intro q h
    cases q with
    | nil => rfl
    | cons x xs =>
      have hl := length_dropWhile_le (continuesRun x.precision) xs
      simp only [List.length_cons] at h
      rw [groupsLoop, List.flatten_cons, ih _ (by omega), List.cons_append,
        List.takeWhile_append_dropWhile]

theorem groupsLoop_ne_nil (fuel : Nat) :
    ∀ q : List Measurement, [] ∉ groupsLoop fuel q := by
  induction fuel with
  | zero => intro q; simp [groupsLoop]
  | succ n ih =>
    intro q
    cases q with
    | nil => simp [groupsLoop]
    | cons x xs =>
      rw [groupsLoop]
      intro h
      rcases List.mem_cons.mp h with h | h
      · simp at h
      · exact ih _ h

theorem groupsLoop_length (fuel : Nat) :
    ∀ q : List Measurement, (groupsLoop fuel q).length ≤ q.length := by
  induction fuel with
  | zero => intro q; simp [groupsLoop]
  | succ n ih =>
    intro q
    cases q with
    | nil => simp [groupsLoop]
    | cons x xs =>
      have hl := length_dropWhile_le (continuesRun x.precision) xs
      have h := ih (xs.dropWhile (continuesRun x.precision))
      rw [groupsLoop]
      simp only [List.length_cons]
      omega

theorem groupsLoop_heads (fuel : Nat) :
    ∀ q : List Measurement, (∀ b l, q = b :: l → b.havePrecision = true) →
      ∀ g ∈ groupsLoop fuel q, ∀ m ms, g = m :: ms → m.havePrecision = true := by
  induction fuel with
  | zero => intro q _ g hg; simp [groupsLoop] at hg
  | succ n ih =>
    intro q hq g hg m ms hgm
    cases q with
    | nil => simp [groupsLoop] at hg
    | cons x xs =>
      rw [groupsLoop] at hg
      rcases List.mem_cons.mp hg with h | h
      · subst h
        have hx : x = m := (List.cons.inj hgm).1
        subst hx
        exact hq _ _ rfl
      · refine ih _ ?_ g h m ms hgm
        intro b l hbl
        have hb := head_dropWhile_false _ xs b l hbl
        simp only [continuesRun, Bool.or_eq_false_iff, Bool.not_eq_false'] at hb
        exact hb.1

theorem groupsLoop_tail_heads (fuel : Nat) (q : List Measurement) :
    ∀ g ∈ (groupsLoop fuel q).tail, ∀ m ms, g = m :: ms → m.havePrecision = true := by
  cases fuel with
  | zero => intro g hg; simp [groupsLoop] at hg
  | succ n =>
    cases q with
    | nil => intro g hg; simp [groupsLoop] at hg
    | cons x xs =>
      rw [groupsLoop, List.tail_cons]
      apply groupsLoop_heads
      intro b l hbl
      have hb := head_dropWhile_false _ xs b l hbl
      simp only [continuesRun, Bool.or_eq_false_iff, Bool.not_eq_false'] at hb
      exact hb.1

theorem groupLoop_shortens (S : StdSort) (front : Measurement) (rest : List Measurement)
    (d : String) :
    (groupLoop S front.precision front d (front :: rest)).2.length
      < (front :: rest).length := by
  rw [groupLoop_eq S front.precision rest front front d rfl rfl]
  have hl := length_dropWhile_le (continuesRun front.precision) rest
  simp only [List.length_cons]
  omega

theorem encodeLine_newline (S : StdSort) (m : Measurement) :
    ∃ text : String, encodeLine S m = text ++ "\n" := by
  rw [encodeLine, appendLine_eq_specLine, String.empty_append]
  exact ⟨_, rfl⟩

theorem run_singleton (S : StdSort) (x : KeyValue) : S.run [x] = [x] :=
  List.perm_singleton.mp (S.perm [x])

/-! ## C11, C12: assignment and enqueue -/

/-- C11 (the claim as stated fails): a destination with timestamp 1700000000 and
override `"s"` that is assigned a source with neither has no timestamp and no
override afterwards: its line carries no timestamp and its effective precision is
the session default. It does not keep the timestamp or the precision it had. -/
theorem assign_drops_destination_timestamp :
    exStamped.timestampOpt = some 1700000000
      ∧ exNoOverride.timestampOpt = none
      ∧ (exStamped.assign exNoOverride).timestampOpt = none
      ∧ (exStamped.assign exNoOverride).timestampOpt ≠ exStamped.timestampOpt
      ∧ exStamped.precisionOpt = some "s"
      ∧ exNoOverride.precisionOpt = none
      ∧ (exStamped.assign exNoOverride).precisionOpt = none
      ∧ encodeLine insertionStdSort exStamped = "mem free=3i 1700000000\n"
      ∧ encodeLine insertionStdSort (exStamped.assign exNoOverride) = "disk used=5i\n"
      ∧ effectivePrecision "ms" exStamped = "s"
      ∧ effectivePrecision "ms" (exStamped.assign exNoOverride) = "ms" := by
  decide

/-- C11 (amended): after `d = s` the name, tags and fields of `d` are those of `s`, and
`d` has a timestamp, and a precision override, exactly when `s` has one, with the
value of `s`: both flags are taken from `s`. When `s` has no timestamp set, `d` has
none afterwards and only the stored `ts` of `d` is the one `d` had before; when `s`
has no precision override, `d` has none afterwards and only the stored `precision`
of `d` is the one `d` had before; when `s` has them set, `ts` and `precision` of `d`
are those of `s`. -/
theorem assign_copies_set_members_only (d s : Measurement) :
    (d.assign s).name = s.name
      ∧ (d.assign s).tags = s.tags
      ∧ (d.assign s).fields = s.fields
      ∧ (s.haveTimestamp = false → (d.assign s).ts = d.ts)
      ∧ (s.havePrecision = false → (d.assign s).precision = d.precision)
      ∧ (s.haveTimestamp = true → (d.assign s).ts = s.ts)
      ∧ (s.havePrecision = true → (d.assign s).precision = s.precision)
      ∧ (d.assign s).haveTimestamp = s.haveTimestamp
      ∧ (d.assign s).havePrecision = s.havePrecision
      ∧ (d.assign s).timestampOpt = s.timestampOpt
      ∧ (d.assign s).precisionOpt = s.precisionOpt
      ∧ (s.haveTimestamp = false → (d.assign s).timestampOpt = none)
      ∧ (s.havePrecision = false → (d.assign s).precisionOpt = none) := by
  refine ⟨rfl, rfl, rfl, ?_, ?_, ?_, ?_, rfl, rfl, ?_, ?_, ?_, ?_⟩
  · intro h
    simp [Measurement.assign, h]
  · intro h
    simp [Measurement.assign, h]
  · intro h
    simp [Measurement.assign, h]
  · intro h
    simp [Measurement.assign, h]
  · unfold Measurement.timestampOpt Measurement.assign
    cases s.haveTimestamp <;> simp
  · unfold Measurement.precisionOpt Measurement.assign
    cases s.havePrecision <;> simp
  · intro h
    simp [Measurement.timestampOpt, Measurement.assign, h]
  · intro h
    simp [Measurement.precisionOpt, Measurement.assign, h]

/-- C11 (amended) in both directions between a measurement with override `"s"` and
timestamp 1700000000 and one with neither. -/
theorem assign_copies_set_members_only_witness :
    (exNoOverride.haveTimestamp = false ∧ exNoOverride.havePrecision = false
        ∧ (exStamped.assign exNoOverride).ts = 1700000000
        ∧ (exStamped.assign exNoOverride).precision = "s"
        ∧ (exStamped.assign exNoOverride).timestampOpt = none
        ∧ (exStamped.assign exNoOverride).precisionOpt = none)
      ∧ (exStamped.haveTimestamp = true ∧ exStamped.havePrecision = true
        ∧ (exNoOverride.assign exStamped).ts = 1700000000
        ∧ (exNoOverride.assign exStamped).precision = "s") :=
  ⟨⟨by decide, by decide,
      (assign_copies_set_members_only exStamped exNoOverride).2.2.2.1 (by decide),
      (assign_copies_set_members_only exStamped exNoOverride).2.2.2.2.1 (by decide),
      (assign_copies_set_members_only exStamped exNoOverride).2.2.2.2.2.2.2.2.2.2.2.1
        (by decide),
      (assign_copies_set_members_only exStamped exNoOverride).2.2.2.2.2.2.2.2.2.2.2.2
        (by decide)⟩,
   ⟨by decide, by decide,
      (assign_copies_set_members_only exNoOverride exStamped).2.2.2.2.2.1 (by decide),
      (assign_copies_set_members_only exNoOverride exStamped).2.2.2.2.2.2.1 (by decide)⟩⟩

/-- C12: `enqueue(m)` puts a copy of `m` (same name, tags, fields, precision override
and timestamp members) at the back of the queue `currentBuffer` designates; the
contents already there, the other queue, the designation and the session settings
are unchanged. The operation is total: it has no failing path. -/
theorem enqueue_appends_to_active (c : Connection) (m : Measurement) :
    (c.enqueue m).buffer c.currentBuffer = c.buffer c.currentBuffer ++ [Measurement.copy m]
      ∧ ((Measurement.copy m).name = m.name ∧ (Measurement.copy m).tags = m.tags
          ∧ (Measurement.copy m).fields = m.fields
          ∧ (Measurement.copy m).havePrecision = m.havePrecision
          ∧ (Measurement.copy m).precision = m.precision
          ∧ (Measurement.copy m).haveTimestamp = m.haveTimestamp
          ∧ (Measurement.copy m).ts = m.ts)
      ∧ (c.enqueue m).buffer c.currentBuffer.other = c.buffer c.currentBuffer.other
      ∧ (c.enqueue m).currentBuffer = c.currentBuffer
      ∧ ((c.enqueue m).serverUrl = c.serverUrl ∧ (c.enqueue m).database = c.database
          ∧ (c.enqueue m).user = c.user ∧ (c.enqueue m).password = c.password
          ∧ (c.enqueue m).defaultPrecision = c.defaultPrecision
          ∧ (c.enqueue m).bufferLength = c.bufferLength
          ∧ (c.enqueue m).bufferDuration = c.bufferDuration) := by
  cases hcur : c.currentBuffer <;>
    simp [Connection.enqueue, Connection.buffer, Connection.setBuffer, BufferId.other, hcur,
      Measurement.copy]

/-! ## C13, C19: termination and size of a drain -/

/-- C13: the drain loop ends with the queue empty: each round of the outer loop takes
at least one measurement off the queue, so with any bound of at least the queue
length the loop stops on its own test, with the same requests. The bodies, in the
order sent, are the lines of consecutive non-empty groups that concatenate to the
queue, so their concatenation is the concatenation of the lines of the queue in FIFO
order: every measurement is encoded once, none skipped, repeated or moved. -/
theorem drain_terminates_in_order (S : StdSort) (c : Connection)
    (perform : Nat → Request → Bool) (q : List Measurement) (fuel : Nat)
    (h : q.length ≤ fuel) :
    (drainLoop S c perform fuel 0 q).queue = []
      ∧ (drainLoop S c perform fuel 0 q).requests = (drain S c perform q).requests
      ∧ (drain S c perform q).queue = []
      ∧ (∀ (front : Measurement) (rest : List Measurement) (d : String),
          (groupLoop S front.precision front d (front :: rest)).2.length
            < (front :: rest).length)
      ∧ String.join ((drain S c perform q).requests.map Request.data)
          = String.join (q.map (encodeLine S))
      ∧ (drain S c perform q).requests.map Request.data
          = (drainGroups q).map (fun g => String.join (g.map (encodeLine S)))
      ∧ (drainGroups q).flatten = q
      ∧ [] ∉ drainGroups q := by
  refine ⟨drainLoop_queue S c perform fuel 0 q h,
    drainLoop_requests_fuel S c perform perform fuel _ 0 0 q h (Nat.le_refl _),
    drainLoop_queue S c perform _ 0 q (Nat.le_refl _),
    groupLoop_shortens S,
    drainLoop_join S c perform _ 0 q (Nat.le_refl _), ?_,
    groupsLoop_flatten _ q (Nat.le_refl _), groupsLoop_ne_nil _ q⟩
  unfold drain drainGroups
  rw [drainLoop_requests_groups, List.map_map]
  apply List.map_congr_left
  intro g hg
  cases g with
  | nil => exact absurd hg (groupsLoop_ne_nil _ q)
  | cons m ms => rfl

/-- C13 on a queue of four measurements with a bound of ten rounds. -/
theorem drain_terminates_in_order_witness :
    [exM1, exM2, exM3, exM4].length ≤ 10
      ∧ ((drainLoop insertionStdSort exConn exCurl.perform 10 0 [exM1, exM2, exM3, exM4]).queue
            = []
          ∧ (drainLoop insertionStdSort exConn exCurl.perform 10 0
                [exM1, exM2, exM3, exM4]).requests
              = (drain insertionStdSort exConn exCurl.perform [exM1, exM2, exM3, exM4]).requests
          ∧ (drain insertionStdSort exConn exCurl.perform [exM1, exM2, exM3, exM4]).queue = []
          ∧ (∀ (front : Measurement) (rest : List Measurement) (d : String),
              (groupLoop insertionStdSort front.precision front d (front :: rest)).2.length
                < (front :: rest).length)
          ∧ String.join
              ((drain insertionStdSort exConn exCurl.perform
                  [exM1, exM2, exM3, exM4]).requests.map Request.data)
              = String.join ([exM1, exM2, exM3, exM4].map (encodeLine insertionStdSort))
          ∧ (drain insertionStdSort exConn exCurl.perform
                [exM1, exM2, exM3, exM4]).requests.map Request.data
              = (drainGroups [exM1, exM2, exM3, exM4]).map
                  (fun g => String.join (g.map (encodeLine insertionStdSort)))
          ∧ (drainGroups [exM1, exM2, exM3, exM4]).flatten = [exM1, exM2, exM3, exM4]
          ∧ [] ∉ drainGroups [exM1, exM2, exM3, exM4])
      ∧ String.join
          ((drain insertionStdSort exConn exCurl.perform
              [exM1, exM2, exM3, exM4]).requests.map Request.data)
          = "cpu load=1i\ncpu load=2i\nmem free=3i\ncpu load=4i\n" :=
  ⟨by decide,
   drain_terminates_in_order insertionStdSort exConn exCurl.perform [exM1, exM2, exM3, exM4] 10
     (by decide),
   by decide⟩

/-- C19: no request of a drain has an empty body: each body begins with the line of
a measurement of the queue, and every line ends with a newline; so a drain sends at
most as many requests as the queue has measurements. A pass that finds the active
queue empty sends nothing and leaves the connection (both queues and the
designation) as it was. -/
theorem no_request_without_line (S : StdSort) (c : Connection) (curl : Curl)
    (perform : Nat → Request → Bool) (q : List Measurement) :
    (∀ r ∈ (drain S c perform q).requests,
        r.data ≠ ""
          ∧ ∃ m ∈ q, ∃ text more : String,
              encodeLine S m = text ++ "\n" ∧ r.data = text ++ "\n" ++ more)
      ∧ (drain S c perform q).requests.length ≤ q.length
      ∧ (c.buffer c.currentBuffer = [] → workerPass S curl c = ⟨c, [], 0, false⟩) := by
  refine ⟨?_, ?_, workerPass_of_nil S curl c⟩
  · intro r hr
    unfold drain at hr
    rw [drainLoop_requests_groups] at hr
    obtain ⟨g, hg, hgr⟩ := List.mem_map.mp hr
    cases g with
    | nil => exact absurd hg (groupsLoop_ne_nil _ q)
    | cons m ms =>
      have hmq : m ∈ q := by
        have : m ∈ (groupsLoop q.length q).flatten :=
          List.mem_flatten.mpr ⟨m :: ms, hg, List.mem_cons_self m ms⟩
        rwa [groupsLoop_flatten _ q (Nat.le_refl _)] at this
      obtain ⟨text, htext⟩ := encodeLine_newline S m
      have hdata : r.data = text ++ "\n" ++ String.join (ms.map (encodeLine S)) := by
        rw [← hgr]
        simp only [runRequest, List.map_cons, join_cons, htext]
      refine ⟨?_, m, hmq, text, _, htext, hdata⟩
      rw [hdata]
      intro hempty
      have := congrArg String.length hempty
      simp only [String.length_append] at this
      have hnl : "\n".length = 1 := rfl
      have h0 : "".length = 0 := rfl
      omega
  · unfold drain
    rw [drainLoop_requests_groups, List.length_map]
    exact groupsLoop_length _ q

/-- C19 on a fresh connection: its active queue is empty and a pass leaves it as it
is; a drain of three measurements sends two requests. -/
theorem no_request_without_line_witness :
    exConn.buffer exConn.currentBuffer = []
      ∧ workerPass insertionStdSort exCurl exConn = ⟨exConn, [], 0, false⟩
      ∧ (drain insertionStdSort exConn exCurl.perform [exM1, exM2, exM3]).requests.length
          ≤ [exM1, exM2, exM3].length
      ∧ (drain insertionStdSort exConn exCurl.perform [exM1, exM2, exM3]).requests.length = 2 :=
  ⟨by decide,
   (no_request_without_line insertionStdSort exConn exCurl exCurl.perform
      [exM1, exM2, exM3]).2.2 (by decide),
   (no_request_without_line insertionStdSort exConn exCurl exCurl.perform
      [exM1, exM2, exM3]).2.1,
   by decide⟩

/-! ## C14: sorting before serialization -/

/-- C14: the tags written in the line of a measurement are a permutation of its
stored tags (the pairs inserted by `tag()`), every pair occurring as often as it was
inserted, with key names in non-decreasing lexicographic order; likewise for the
fields. Pairs that share a key are all kept: with tags `k`, `a`, `k` inserted, both
`k` pairs are written, after `a`. -/
theorem sorted_sections_are_permutations (S : StdSort) (m : Measurement) :
    encodeLine S m = specLine m.name (S.run m.tags) (S.run m.fields) m.timestampOpt
      ∧ List.Perm (S.run m.tags) m.tags
      ∧ List.Pairwise (fun a b => a.name ≤ b.name) (S.run m.tags)
      ∧ (∀ kv : KeyValue, (S.run m.tags).count kv = m.tags.count kv)
      ∧ List.Perm (S.run m.fields) m.fields
      ∧ List.Pairwise (fun a b => a.name ≤ b.name) (S.run m.fields)
      ∧ (∀ kv : KeyValue, (S.run m.fields).count kv = m.fields.count kv)
      ∧ (S.run exSameKey.tags).count ⟨"k", "\"1\""⟩ = 1
      ∧ (S.run exSameKey.tags).count ⟨"k", "\"2\""⟩ = 1
      ∧ (S.run exSameKey.tags).length = 3
      ∧ encodeLine insertionStdSort exSameKey = "cpu,a=\"x\",k=\"1\",k=\"2\" \n" := by
  refine ⟨?_, S.perm _, (keyOrdered_iff _).mp (S.ordered _), fun kv => (S.perm _).count_eq kv,
    S.perm _, (keyOrdered_iff _).mp (S.ordered _), fun kv => (S.perm _).count_eq kv,
    ?_, ?_, ?_, by decide⟩
  · rw [encodeLine, appendLine_eq_specLine, String.empty_append]
  · rw [(S.perm _).count_eq]
    decide
  · rw [(S.perm _).count_eq]
    decide
  · rw [(S.perm _).length_eq]
    decide

/-! ## C17: measurements without override -/

/-- C17: a request of a drain other than the first always starts at a measurement
that has a precision override: the requests are built from consecutive non-empty
groups that concatenate to the queue, each sent under the URL of its first
measurement, and every group after the first begins with a measurement whose
`havePrecision` is set. So a measurement without override that follows another one
is in the group, and under the `precision` parameter, of the measurement before it:
after a measurement with override `"s"`, one without override is sent in the same
request under `precision=s`, whatever the session default. -/
theorem no_override_joins_previous_request (S : StdSort) (c : Connection)
    (perform : Nat → Request → Bool) (q : List Measurement) (defaultPrecision : String) :
    (drain S c perform q).requests = (drainGroups q).map (runRequest S c)
      ∧ (drainGroups q).flatten = q
      ∧ [] ∉ drainGroups q
      ∧ (∀ g ∈ (drainGroups q).tail, ∀ (m : Measurement) (ms : List Measurement),
          g = m :: ms → m.havePrecision = true)
      ∧ (∀ (a x : Measurement) (post : List Measurement), x.havePrecision = false →
          ∃ g gs, drainGroups (a :: x :: post) = (a :: x :: g) :: gs)
      ∧ (drain S (exConn.setDefaultPrecision defaultPrecision) perform
            [exM3, exNoOverride]).requests
          = [⟨"http://localhost:8086/write?db=metrics&precision=s",
              "mem free=3i\ndisk used=5i\n"⟩] := by
  refine ⟨drainLoop_requests_groups S c perform _ 0 q, groupsLoop_flatten _ q (Nat.le_refl _),
    groupsLoop_ne_nil _ q, groupsLoop_tail_heads _ q, ?_, ?_⟩
  · intro a x post hx
    have hc : continuesRun a.precision x = true := by simp [continuesRun, hx]
    refine ⟨post.takeWhile (continuesRun a.precision),
      groupsLoop (x :: post).length ((x :: post).dropWhile (continuesRun a.precision)), ?_⟩
    unfold drainGroups
    rw [List.length_cons, groupsLoop, List.takeWhile_cons, if_pos hc]
  · have hg : drainGroups [exM3, exNoOverride] = [[exM3, exNoOverride]] := by decide
    have h0 : S.run [] = [] := (run_eq_nil_iff S []).mpr rfl
    have hl1 : encodeLine S exM3 = "mem free=3i\n" := by
      have hf : exM3.fields = [⟨"free", "3i"⟩] := by decide
      have ht : exM3.tags = [] := rfl
      rw [encodeLine, appendLine_eq_specLine, String.empty_append, hf, ht, run_singleton, h0]
      decide
    have hl2 : encodeLine S exNoOverride = "disk used=5i\n" := by
      have hf : exNoOverride.fields = [⟨"used", "5i"⟩] := by decide
      have ht : exNoOverride.tags = [] := rfl
      rw [encodeLine, appendLine_eq_specLine, String.empty_append, hf, ht, run_singleton, h0]
      decide
    have hu : buildUrl (exConn.setDefaultPrecision defaultPrecision) exM3
        = "http://localhost:8086/write?db=metrics&precision=s" := by
      rw [buildUrl_eq_specUrl]
      have he : effectivePrecision (exConn.setDefaultPrecision defaultPrecision).defaultPrecision
          exM3 = "s" := by
        simp [effectivePrecision, exM3, Measurement.mkWithPrecision, Measurement.fieldLongLong]
      rw [he]
      have hs : (exConn.setDefaultPrecision defaultPrecision).serverUrl
          = "http://localhost:8086" := rfl
      have hd : (exConn.setDefaultPrecision defaultPrecision).database = "metrics" := rfl
      have hus : (exConn.setDefaultPrecision defaultPrecision).user = "" := rfl
      have hp : (exConn.setDefaultPrecision defaultPrecision).password = "" := rfl
      rw [hs, hd, hus, hp]
      decide
    unfold drain
    rw [drainLoop_requests_groups S _ perform _ 0 [exM3, exNoOverride]]
    have hg2 : groupsLoop [exM3, exNoOverride].length [exM3, exNoOverride]
        = [[exM3, exNoOverride]] := hg
    rw [hg2]
    simp only [List.map_cons, List.map_nil, runRequest, hu, hl1, hl2]
    decide

/-- C17 on the queue [override `"s"`, no override, override `"ms"`]: the second
measurement stays in the first group. -/
theorem no_override_joins_previous_request_witness :
    exNoOverride.havePrecision = false
      ∧ (∃ g gs, drainGroups (exM3 :: exNoOverride :: [exM1])
          = (exM3 :: exNoOverride :: g) :: gs)
      ∧ drainGroups [exM3, exNoOverride, exM1] = [[exM3, exNoOverride], [exM1]] :=
  ⟨by decide,
   (no_override_joins_previous_request insertionStdSort exConn exCurl.perform [] "ms").2.2.2.2.1
     exM3 exNoOverride [exM1] (by decide),
   by decide⟩

/-! ## C15, C16, C18: constructors, builders, assignment as seen by the worker -/

/-- C15 (the code departs from the claim): none of the three constructors initialises
`haveTimestamp` or `ts`, so a measurement on which `timestamp()` was never called
has whatever flag its storage held. When that flag reads true the encoded line
carries the stored word as a timestamp: built in storage holding `true` and 42,
`Measurement("cpu").field("load", 1LL)` is encoded `cpu load=1i 42`, and the same
holds for the other two constructors. -/
theorem constructors_do_not_initialise_timestamp :
    (∀ (b : Bool) (t : Int), (Measurement.mkDefault b t).timestampOpt
        = if b then some t else none)
      ∧ (∀ (n : String) (b : Bool) (t : Int), (Measurement.mkNamed n b t).timestampOpt
        = if b then some t else none)
      ∧ (∀ (n p : String) (b : Bool) (t : Int),
          (Measurement.mkWithPrecision n p b t).timestampOpt = if b then some t else none)
      ∧ encodeLine insertionStdSort exGarbage = "cpu load=1i 42\n"
      ∧ encodeLine insertionStdSort ((Measurement.mkDefault true 42).fieldLongLong "load" 1)
          = " load=1i 42\n"
      ∧ encodeLine insertionStdSort
          ((Measurement.mkWithPrecision "cpu" "ms" true 42).fieldLongLong "load" 1)
          = "cpu load=1i 42\n"
      ∧ encodeLine insertionStdSort ((Measurement.mkNamed "cpu" false 42).fieldLongLong "load" 1)
          = "cpu load=1i\n" := by
  refine ⟨fun b t => rfl, fun n b t => rfl, fun n p b t => rfl, ?_, ?_, ?_, ?_⟩ <;> decide

/-- C16: every builder call changes only its own component. `tag` appends one pair
at the end of the tags and leaves name, fields, precision and timestamp members as
they were; each `field` overload (string, bool, integer, character, floating point)
appends one pair at the end of the fields and leaves name, tags, precision and
timestamp members as they were; `timestamp(t)` sets the timestamp to `t`, the last
call wins, and name, tags, fields and precision members stay as they were. -/
theorem builders_change_own_component (m : Measurement) (k v : String) (b : Bool)
    (i t t2 : Int) (ch : Char) (streamed : String) :
    (∃ kv : KeyValue, kv.name = k ∧ m.tag k v = { m with tags := m.tags ++ [kv] })
      ∧ (∃ kv : KeyValue, kv.name = k
          ∧ m.fieldString k v = { m with fields := m.fields ++ [kv] })
      ∧ (∃ kv : KeyValue, kv.name = k
          ∧ m.fieldBool k b = { m with fields := m.fields ++ [kv] })
      ∧ (∃ kv : KeyValue, kv.name = k
          ∧ m.fieldLongLong k i = { m with fields := m.fields ++ [kv] })
      ∧ (∃ kv : KeyValue, kv.name = k
          ∧ m.fieldChar k ch = { m with fields := m.fields ++ [kv] })
      ∧ (∃ kv : KeyValue, kv.name = k
          ∧ m.fieldDouble k streamed = { m with fields := m.fields ++ [kv] })
      ∧ m.timestamp t = { m with haveTimestamp := true, ts := t }
      ∧ (m.timestamp t).timestampOpt = some t
      ∧ (m.timestamp t).timestamp t2 = m.timestamp t2 :=
  ⟨⟨_, rfl, rfl⟩, ⟨_, rfl, rfl⟩, ⟨_, rfl, rfl⟩, ⟨_, rfl, rfl⟩, ⟨_, rfl, rfl⟩, ⟨_, rfl, rfl⟩,
    rfl, rfl, rfl⟩

/-- C18: after `d = s` both flags of `d` are those of `s`; the encoded line of `d` is
the encoded line of `s` and, under any session default, the effective precision of
`d` is that of `s`, whatever `d` held before. Every member of `d` is the member of
`s` except the stored `precision` and `ts`, which can differ from those of `s`
(shown on a destination with override and timestamp and a source with neither). -/
theorem assign_same_line_and_precision (S : StdSort) (defaultPrecision : String)
    (d s : Measurement) :
    (d.assign s).haveTimestamp = s.haveTimestamp
      ∧ (d.assign s).havePrecision = s.havePrecision
      ∧ encodeLine S (d.assign s) = encodeLine S s
      ∧ effectivePrecision defaultPrecision (d.assign s) = effectivePrecision defaultPrecision s
      ∧ d.assign s = { s with precision := (d.assign s).precision, ts := (d.assign s).ts }
      ∧ (exStamped.assign exNoOverride).precision ≠ exNoOverride.precision
      ∧ (exStamped.assign exNoOverride).ts ≠ exNoOverride.ts := by
  refine ⟨rfl, rfl, encodeLine_assign S d s, ?_, rfl, by decide, by decide⟩
  unfold effectivePrecision Measurement.assign
  cases s.havePrecision <;> simp

end Influx
